import Mathlib

/-!
Verification development for the Deciphenator3000 cipher library and
search engine.  The Python sources (`ciphers.py`, `decryptor_app.py`)
are shallowly embedded: strings become `List Char`, Python exceptions
raised by the transforms become `Except` values, and Python `int`
arithmetic becomes `Int` (Lean's `%` on `Int` is Euclidean modulus,
which agrees with Python's `%` at every call site of the source, where
the modulus is positive).
-/

namespace Ciphers

/-- `ord` of a character (Python `ord`, for the ASCII range used by the code). -/
def ordC (c : Char) : Int := (c.toNat : Int)

/-- `chr` of a code point (Python `chr`; the code only produces valid points). -/
def chrC (n : Int) : Char := Char.ofNat n.toNat

/-- The test `'a' <= char <= 'z'` from the source. -/
def isLowerCh (c : Char) : Bool := decide ('a' ≤ c) && decide (c ≤ 'z')

/-- The test `'A' <= char <= 'Z'` from the source. -/
def isUpperCh (c : Char) : Bool := decide ('A' ≤ c) && decide (c ≤ 'Z')

/-- A character the transforms treat as a letter. -/
def isLetterCh (c : Char) : Bool := isLowerCh c || isUpperCh c

/-- Python `str.lower` on one character (ASCII model). -/
def pyToLower (c : Char) : Char :=
  if isUpperCh c then Char.ofNat (c.toNat + 32) else c

/-- Python `str.upper` on one character (ASCII model). -/
def pyToUpper (c : Char) : Char :=
  if isLowerCh c then Char.ofNat (c.toNat - 32) else c

/-- Python whitespace characters (the set stripped by `split`/`rstrip`). -/
def pyIsSpaceCh (c : Char) : Bool :=
  c = ' ' || c = '\t' || c = '\n' || c = '\x0d' || c = '\x0b' || c = '\x0c'

/-- ASCII digit test. -/
def isDigitCh (c : Char) : Bool := decide ('0' ≤ c) && decide (c ≤ '9')

/-- Python `str.isalpha` (ASCII model): non-empty and all letters. -/
def pyIsAlphaStr (l : List Char) : Bool := !l.isEmpty && l.all isLetterCh

/-- Python `keyword.replace(' ', '')`: drop space characters only. -/
def removeSpaces (l : List Char) : List Char := l.filter (fun c => c ≠ ' ')

/-- Python `''.join(s.split())`: drop all whitespace characters. -/
def removeWhitespace (l : List Char) : List Char := l.filter (fun c => !pyIsSpaceCh c)

/-- Python `str.rstrip()`: drop trailing whitespace. -/
def pyRstrip (l : List Char) : List Char := (l.reverse.dropWhile pyIsSpaceCh).reverse

/-- Digit run accepted by Python `int`: digits with single interior underscores. -/
def digitsValid : List Char → Bool
  | [] => false
  | [c] => isDigitCh c
  | c :: c' :: rest =>
    if isDigitCh c then digitsValid (c' :: rest)
    else if c = '_' then isDigitCh c' && digitsValid (c' :: rest)
    else false

/-- Numeric value of such a digit run (underscores ignored). -/
def digitsValue (l : List Char) : Nat :=
  l.foldl (fun acc c => if isDigitCh c then acc * 10 + (c.toNat - '0'.toNat) else acc) 0

/-- Python `int(s)`: optional surrounding whitespace, optional sign, digit run.
Returns `none` where Python raises `ValueError`. -/
def pyParseInt (s : List Char) : Option Int :=
  let t := (s.dropWhile pyIsSpaceCh).reverse.dropWhile pyIsSpaceCh |>.reverse
  match t with
  | '-' :: rest => if digitsValid rest then some (-(digitsValue rest : Int)) else none
  | '+' :: rest => if digitsValid rest then some ((digitsValue rest : Int)) else none
  | rest => if digitsValid rest then some ((digitsValue rest : Int)) else none

/-- Python `str(n)` for an integer, as a character list. -/
def intToChars (n : Int) : List Char := (toString n).toList

/-- `caesar_cipher` from `ciphers.py` (the `isinstance` guard is enforced by
the `Int` type of `shift`). -/
def caesar_cipher (text : List Char) (shift : Int) : List Char :=
  text.map fun ch =>
    if isLowerCh ch then chrC (((ordC ch - ordC 'a' - shift) % 26) + ordC 'a')
    else if isUpperCh ch then chrC (((ordC ch - ordC 'A' - shift) % 26) + ordC 'A')
    else ch

/-- `rot13_cipher` from `ciphers.py`. -/
def rot13_cipher (text : List Char) : List Char := caesar_cipher text 13

/-- `atbash_cipher` from `ciphers.py`. -/
def atbash_cipher (text : List Char) : List Char :=
  text.map fun ch =>
    if isLowerCh ch then chrC (ordC 'z' - (ordC ch - ordC 'a'))
    else if isUpperCh ch then chrC (ordC 'Z' - (ordC ch - ordC 'A'))
    else ch

/-- `reverse_cipher` from `ciphers.py`. -/
def reverse_cipher (text : List Char) : List Char := text.reverse

/-- The keyword-cleaning step shared by Vigenère and Beaufort:
`''.join(keyword.split()).lower()`. -/
def cleanKeywordLower (kw : List Char) : List Char :=
  (removeWhitespace kw).map pyToLower

/-- The per-character loop of `vigenere_cipher`, with the running
`keyword_index`. -/
def vigenereAux (kwInts : List Int) (klen : Nat) : List Char → Nat → List Char
  | [], _ => []
  | ch :: rest, idx =>
    if isLowerCh ch then
      chrC (((ordC ch - ordC 'a' - kwInts.getD (idx % klen) 0) % 26) + ordC 'a') ::
        vigenereAux kwInts klen rest (idx + 1)
    else if isUpperCh ch then
      chrC (((ordC ch - ordC 'A' - kwInts.getD (idx % klen) 0) % 26) + ordC 'A') ::
        vigenereAux kwInts klen rest (idx + 1)
    else ch :: vigenereAux kwInts klen rest idx

/-- `vigenere_cipher` from `ciphers.py`; `CipherError` becomes `Except.error`. -/
def vigenere_cipher (text kw : List Char) : Except (List Char) (List Char) :=
  if kw = [] ∨ ¬ pyIsAlphaStr (removeSpaces kw) then
    .error ("Vigenère cipher requires an alphabetic keyword, got '".toList ++ kw ++ "'".toList)
  else
    let ck := cleanKeywordLower kw
    .ok (vigenereAux (ck.map (fun k => ordC k - ordC 'a')) ck.length text 0)

/-- The per-character loop of `beaufort_cipher`. -/
def beaufortAux (kwInts : List Int) (klen : Nat) : List Char → Nat → List Char
  | [], _ => []
  | ch :: rest, idx =>
    if isLowerCh ch then
      chrC (((kwInts.getD (idx % klen) 0 - (ordC ch - ordC 'a')) % 26) + ordC 'a') ::
        beaufortAux kwInts klen rest (idx + 1)
    else if isUpperCh ch then
      chrC (((kwInts.getD (idx % klen) 0 - (ordC ch - ordC 'A')) % 26) + ordC 'A') ::
        beaufortAux kwInts klen rest (idx + 1)
    else ch :: beaufortAux kwInts klen rest idx

/-- `beaufort_cipher` from `ciphers.py`. -/
def beaufort_cipher (text kw : List Char) : Except (List Char) (List Char) :=
  if kw = [] ∨ ¬ pyIsAlphaStr (removeSpaces kw) then
    .error ("Beaufort cipher requires an alphabetic keyword, got '".toList ++ kw ++ "'".toList)
  else
    let ck := cleanKeywordLower kw
    .ok (beaufortAux (ck.map (fun k => ordC k - ordC 'a')) ck.length text 0)

def ascii_lowercase : List Char := "abcdefghijklmnopqrstuvwxyz".toList

def ascii_uppercase : List Char := "ABCDEFGHIJKLMNOPQRSTUVWXYZ".toList

/-- Lookup in a Python `str.maketrans` table built from the given key/value
pairs (on duplicate keys the later pair wins, as with `dict` insertion);
characters absent from the table are left unchanged by `translate`. -/
def transLookup (pairs : List (Char × Char)) (c : Char) : Char :=
  match pairs.reverse.find? (fun p => p.1 == c) with
  | some p => p.2
  | none => c

/-- `simple_substitution_cipher` from `ciphers.py`: two successive
`translate` passes, lowercase table then uppercase table. -/
def simple_substitution_cipher (text alphabet : List Char) : Except (List Char) (List Char) :=
  if alphabet = [] ∨ alphabet.length ≠ 26 ∨ ¬ pyIsAlphaStr alphabet then
    .error ("Simple substitution requires a 26-letter alphabetic keyword, got '".toList
      ++ alphabet ++ "'".toList)
  else
    let substitution_lower := alphabet.map pyToLower
    let substitution_upper := alphabet.map pyToUpper
    .ok (((text.map (transLookup (substitution_lower.zip ascii_lowercase))).map
      (transLookup (substitution_upper.zip ascii_uppercase))))

/-- `gcd` from `ciphers.py`: `while b: a, b = b, a % b`. -/
def gcd (a b : Int) : Int :=
  if h : b = 0 then a else gcd b (a % b)
termination_by b.natAbs
decreasing_by
  have h1 : 0 ≤ a % b := Int.emod_nonneg a h
  have h2 : a % b < |b| := by
    rcases lt_or_gt_of_ne h with hb | hb
    · have := Int.emod_lt_of_pos a (b := -b) (by omega)
      rw [Int.emod_neg] at this
      rw [abs_of_neg hb]
      omega
    · have := Int.emod_lt_of_pos a hb
      rw [abs_of_pos hb]
      omega
  have h3 : |b| = (b.natAbs : Int) := Int.abs_eq_natAbs b
  omega

/-- The inner `extended_gcd` of `mod_inverse` in `ciphers.py`. -/
def extended_gcd (a b : Int) : Int × Int × Int :=
  if h : a = 0 then (b, 0, 1)
  else
    let r := extended_gcd (b % a) a
    (r.1, r.2.2 - (b / a) * r.2.1, r.2.1)
termination_by a.natAbs
decreasing_by
  have h1 : 0 ≤ b % a := Int.emod_nonneg b h
  have h2 : b % a < |a| := by
    rcases lt_or_gt_of_ne h with ha | ha
    · have := Int.emod_lt_of_pos b (b := -a) (by omega)
      rw [Int.emod_neg] at this
      rw [abs_of_neg ha]
      omega
    · have := Int.emod_lt_of_pos b ha
      rw [abs_of_pos ha]
      omega
  have h3 : |a| = (a.natAbs : Int) := Int.abs_eq_natAbs a
  omega

/-- `mod_inverse` from `ciphers.py`; the `CipherError` it raises becomes
`Except.error`. -/
def mod_inverse (a m : Int) : Except (List Char) Int :=
  let r := extended_gcd (a % m) m
  if r.1 ≠ 1 then
    .error ("Modular inverse does not exist for ".toList ++ intToChars a
      ++ " and ".toList ++ intToChars m)
  else
    .ok ((r.2.1 % m + m) % m)

/-- Python `keyword.split(',', 1)` preceded by the `',' in keyword` test:
`none` when there is no comma, otherwise the parts before and after the
first comma. -/
def splitFirstComma : List Char → Option (List Char × List Char)
  | [] => none
  | c :: rest =>
    if c = ',' then some ([], rest)
    else match splitFirstComma rest with
      | none => none
      | some (xs, ys) => some (c :: xs, ys)

/-- `affine_cipher` from `ciphers.py`.  The `try` block converts
`ValueError`/`IndexError` from parsing into the format message, while the
`CipherError`s raised inside it (non-coprime `a`, `mod_inverse` failure)
propagate with their own messages. -/
def affine_cipher (text kw : List Char) : Except (List Char) (List Char) :=
  let fmtMsg := "Affine cipher requires format 'a,b' with integers, got '".toList
    ++ kw ++ "'".toList
  match splitFirstComma kw with
  | none => .error fmtMsg
  | some (aStr, bStr) =>
    match pyParseInt aStr, pyParseInt bStr with
    | some a, some b =>
      if gcd a 26 ≠ 1 then
        .error ("'a' value (".toList ++ intToChars a ++ ") must be coprime to 26".toList)
      else
        match mod_inverse a 26 with
        | .error e => .error e
        | .ok aInv =>
          .ok (text.map fun ch =>
            if isLowerCh ch then chrC ((aInv * ((ordC ch - ordC 'a') - b)) % 26 + ordC 'a')
            else if isUpperCh ch then chrC ((aInv * ((ordC ch - ordC 'A') - b)) % 26 + ordC 'A')
            else ch)
    | _, _ => .error fmtMsg

/-- One insertion step of the stable sort performed by Python
`sorted(enumerate(clean_keyword), key=lambda x: x[1])`. -/
def sortPairsInsert (x : Nat × Char) : List (Nat × Char) → List (Nat × Char)
  | [] => [x]
  | y :: ys => if y.2 < x.2 then y :: sortPairsInsert x ys else x :: y :: ys

/-- Stable sort of the enumerated keyword by character (Python `sorted` with
`key=lambda x: x[1]`; ties keep their original relative order). -/
def sortPairs : List (Nat × Char) → List (Nat × Char)
  | [] => []
  | x :: xs => sortPairsInsert x (sortPairs xs)

/-- The inner `for row in range(num_rows)` loop of
`columnar_transposition_cipher`: writes successive ciphertext characters
into column `colIndex` while `text_index < len(text)`.  The grid is a
function from row and column to the cell contents (a cell is `[]` while it
still holds the initial empty string). -/
def columnFill (text : List Char) (colIndex : Nat) :
    List Nat → (Nat → Nat → List Char) × Nat → (Nat → Nat → List Char) × Nat
  | [], gt => gt
  | row :: rest, (grid, t) =>
    if t < text.length then
      columnFill text colIndex rest
        ((fun r c => if r = row ∧ c = colIndex then [text.getD t ' '] else grid r c), t + 1)
    else columnFill text colIndex rest (grid, t)

/-- The outer `for col_priority in range(key_length)` loop of
`columnar_transposition_cipher`, with `col_index = column_order.index(col_priority)`. -/
def gridFill (text : List Char) (column_order : List Nat) (num_rows : Nat) :
    List Nat → (Nat → Nat → List Char) × Nat → (Nat → Nat → List Char) × Nat
  | [], gt => gt
  | p :: ps, gt =>
    gridFill text column_order num_rows ps
      (columnFill text (column_order.indexOf p) (List.range num_rows) gt)

/-- `columnar_transposition_cipher` from `ciphers.py`. -/
def columnar_transposition_cipher (text kw : List Char) : Except (List Char) (List Char) :=
  if kw = [] ∨ ¬ pyIsAlphaStr (removeSpaces kw) then
    .error ("Columnar transposition requires an alphabetic keyword, got '".toList
      ++ kw ++ "'".toList)
  else
    let ck := (removeWhitespace kw).map pyToUpper
    let key_length := ck.length
    let column_order := (sortPairs ck.enum).map Prod.fst
    let num_rows := text.length / key_length
      + (if text.length % key_length = 0 then 0 else 1)
    let grid := (gridFill text column_order num_rows (List.range key_length)
      ((fun _ _ => []), 0)).1
    .ok (pyRstrip (((List.range num_rows).map
      (fun r => ((List.range key_length).map (grid r)).flatten)).flatten))

/-- `chars_in_rail` as computed by `rail_fence_cipher` for rail `j`. -/
def railLen (num_rails n j : Nat) : Nat :=
  let cycle_length := 2 * (num_rails - 1)
  let full_cycles := n / cycle_length
  let remainder := n % cycle_length
  if j = 0 ∨ j = num_rails - 1 then
    full_cycles + (if remainder > j then 1 else 0)
  else
    2 * full_cycles + (if remainder > j then 1 else 0)
      + (if remainder > cycle_length - j then 1 else 0)

/-- The rail-extraction loop of `rail_fence_cipher`: each rail receives the
next `chars_in_rail` characters of the ciphertext (stopping at the end of
the text, which `take` models). -/
def takeRails (text : List Char) : List Nat → List (List Char)
  | [] => []
  | k :: ks => text.take k :: takeRails (text.drop k) ks

/-- The rail index of position `i` in the zig-zag
(`cycle_pos = i % cycle_length; rail = cycle_pos` on the way down,
`cycle_length - cycle_pos` on the way up). -/
def zigRail (cycle_length num_rails i : Nat) : Nat :=
  let cycle_pos := i % cycle_length
  if cycle_pos < num_rails then cycle_pos else cycle_length - cycle_pos

/-- One iteration of the reconstruction loop of `rail_fence_cipher`: state is
the emitted characters so far and the per-rail consumption counters
(`rail_indices`); an exhausted rail leaves the output cell empty. -/
def rebuildStep (rails : List (List Char)) (cycle_length num_rails : Nat)
    (st : List Char × List Nat) (i : Nat) : List Char × List Nat :=
  let rail := zigRail cycle_length num_rails i
  let k := st.2.getD rail 0
  if k < (rails.getD rail []).length then
    (st.1 ++ [(rails.getD rail []).getD k ' '], st.2.set rail (k + 1))
  else (st.1, st.2)

/-- `rail_fence_cipher` from `ciphers.py`. -/
def rail_fence_cipher (text kw : List Char) : Except (List Char) (List Char) :=
  match pyParseInt kw with
  | none =>
    .error ("Rail fence cipher requires a positive integer >= 2, got '".toList
      ++ kw ++ "'".toList)
  | some z =>
    if z < 2 then
      .error ("Rail fence cipher requires a positive integer >= 2, got '".toList
        ++ kw ++ "'".toList)
    else
      let num_rails := z.toNat
      if text.length ≤ num_rails then .ok text
      else
        let cycle_length := 2 * (num_rails - 1)
        let rails := takeRails text ((List.range num_rails).map (railLen num_rails text.length))
        .ok (((List.range text.length).foldl (rebuildStep rails cycle_length num_rails)
          ([], List.replicate num_rails 0)).1)

/-- The 25-letter Playfair alphabet (no `J`) of `ciphers.py`. -/
def pfAlphabet : List Char := "ABCDEFGHIKLMNOPQRSTUVWXYZ".toList

/-- The keyword pass of the Playfair grid construction: appends each keyword
character that is not yet `seen` and belongs to the alphabet, recording it in
`seen`.  Returns the appended characters and the final `seen` set. -/
def pfFill : List Char → List Char → List Char × List Char
  | [], seen => ([], seen)
  | ch :: rest, seen =>
    if ch ∉ seen ∧ ch ∈ pfAlphabet then
      let r := pfFill rest (ch :: seen)
      (ch :: r.1, r.2)
    else pfFill rest seen

/-- The full `grid_chars` of `playfair_cipher`: keyword pass, then the
remaining alphabet characters not in `seen`. -/
def pfGridChars (ck : List Char) : List Char :=
  let r := pfFill ck []
  r.1 ++ pfAlphabet.filter (fun c => c ∉ r.2)

/-- `clean_keyword` of `playfair_cipher`:
`''.join(keyword.split()).upper().replace('J', 'I')`. -/
def pfCleanKeyword (kw : List Char) : List Char :=
  ((removeWhitespace kw).map pyToUpper).map (fun c => if c = 'J' then 'I' else c)

/-- `clean_text` of `playfair_cipher`:
`''.join(c.upper() for c in text if c.isalpha()).replace('J', 'I')`. -/
def pfCleanText (text : List Char) : List Char :=
  ((text.filter isLetterCh).map pyToUpper).map (fun c => if c = 'J' then 'I' else c)

/-- Decryption of one digraph in `playfair_cipher`: pass-through when a
character is outside the grid, shift left within a shared row, shift up
within a shared column, swap columns otherwise.  Positions are
`(i // 5, i % 5)` of the index in `grid_chars`. -/
def pfDecryptPair (grid : List Char) (c1 c2 : Char) : List Char :=
  if c1 ∉ grid ∨ c2 ∉ grid then [c1, c2]
  else
    let i1 := grid.indexOf c1
    let i2 := grid.indexOf c2
    let row1 := i1 / 5
    let col1 := i1 % 5
    let row2 := i2 / 5
    let col2 := i2 % 5
    if row1 = row2 then
      [grid.getD (row1 * 5 + (((col1 : Int) - 1) % 5).toNat) ' ',
       grid.getD (row2 * 5 + (((col2 : Int) - 1) % 5).toNat) ' ']
    else if col1 = col2 then
      [grid.getD ((((row1 : Int) - 1) % 5).toNat * 5 + col1) ' ',
       grid.getD ((((row2 : Int) - 1) % 5).toNat * 5 + col2) ' ']
    else
      [grid.getD (row1 * 5 + col2) ' ', grid.getD (row2 * 5 + col1) ' ']

/-- The digraph loop of `playfair_cipher` (`for i in range(0, len, 2)`). -/
def pfPairs (grid : List Char) : List Char → List Char
  | c1 :: c2 :: rest => pfDecryptPair grid c1 c2 ++ pfPairs grid rest
  | _ => []

/-- `playfair_cipher` from `ciphers.py`. -/
def playfair_cipher (text kw : List Char) : Except (List Char) (List Char) :=
  if kw = [] ∨ ¬ pyIsAlphaStr (removeSpaces kw) then
    .error ("Playfair cipher requires an alphabetic keyword, got '".toList ++ kw ++ "'".toList)
  else
    let grid := pfGridChars (pfCleanKeyword kw)
    let ct := pfCleanText text
    if ct.length % 2 ≠ 0 then .error "Playfair cipher requires even-length text".toList
    else .ok (pfPairs grid ct)

/-- The method-name normalisation of `apply_cipher`:
`cipher_method.lower().replace('_', '').replace('-', '').replace(' ', '')`. -/
def normalizeMethod (m : List Char) : List Char :=
  (m.map pyToLower).filter (fun c => c ≠ '_' ∧ c ≠ '-' ∧ c ≠ ' ')

/-- Python `str.title` (ASCII model): a letter is uppercased after a
non-letter (or at the start) and lowercased otherwise. -/
def pyTitleAux : List Char → Bool → List Char
  | [], _ => []
  | ch :: rest, prevAlpha =>
    (if isLetterCh ch then (if prevAlpha then pyToLower ch else pyToUpper ch) else ch)
      :: pyTitleAux rest (isLetterCh ch)

/-- Python `str.title`. -/
def pyTitle (l : List Char) : List Char := pyTitleAux l false

/-- The `', '.join(available_ciphers)` text of `apply_cipher`'s unknown-method
message. -/
def availableCiphersMsg : List Char :=
  ("caesar, rot13, atbash, vigenere, beaufort, simple_substitution, affine, reverse, "
    ++ "columnar_transposition, rail_fence, playfair").toList

/-- The `except CipherError` handler of `apply_cipher`: a raised cipher error
becomes the string `"Error: {e}"`. -/
def exceptToResult : Except (List Char) (List Char) → List Char
  | .ok r => r
  | .error e => "Error: ".toList ++ e

/-- `apply_cipher` from `ciphers.py`.  Every failure is returned as an error
string; nothing escapes (the source catches `CipherError` and `Exception`). -/
def apply_cipher (ciphertext kw method : List Char) : List Char :=
  if ciphertext = [] then "Error: No ciphertext provided.".toList
  else
    let cipher_method := normalizeMethod method
    if cipher_method = "reverse".toList then reverse_cipher ciphertext
    else if cipher_method = "rot13".toList then rot13_cipher ciphertext
    else if cipher_method = "atbash".toList then atbash_cipher ciphertext
    else if kw = [] then
      "Error: ".toList ++ pyTitle cipher_method ++ " cipher requires a keyword.".toList
    else if cipher_method = "caesar".toList then
      match pyParseInt kw with
      | some shift => caesar_cipher ciphertext shift
      | none =>
        "Error: Caesar cipher requires a numeric keyword, got '".toList ++ kw ++ "'.".toList
    else if cipher_method = "vigenere".toList then exceptToResult (vigenere_cipher ciphertext kw)
    else if cipher_method = "beaufort".toList then exceptToResult (beaufort_cipher ciphertext kw)
    else if cipher_method ∈ ["simplesubstitution".toList, "substitution".toList,
        "monoalphabetic".toList] then
      exceptToResult (simple_substitution_cipher ciphertext kw)
    else if cipher_method = "affine".toList then exceptToResult (affine_cipher ciphertext kw)
    else if cipher_method ∈ ["columnartransposition".toList, "columnar".toList] then
      exceptToResult (columnar_transposition_cipher ciphertext kw)
    else if cipher_method ∈ ["railfence".toList, "zigzag".toList] then
      exceptToResult (rail_fence_cipher ciphertext kw)
    else if cipher_method = "playfair".toList then exceptToResult (playfair_cipher ciphertext kw)
    else
      "Error: Unknown cipher method '".toList ++ cipher_method
        ++ "'. Available ciphers: ".toList ++ availableCiphersMsg

/-- `is_valid_keyword_for_cipher` from `ciphers.py`. -/
def is_valid_keyword_for_cipher (kw method : List Char) : Bool :=
  let cipher_method := normalizeMethod method
  if cipher_method ∈ ["reverse".toList, "rot13".toList, "atbash".toList] then kw = []
  else if cipher_method = "caesar".toList then (pyParseInt kw).isSome
  else if cipher_method ∈ ["railfence".toList, "zigzag".toList] then
    match pyParseInt kw with
    | some num => num ≥ 2
    | none => false
  else if cipher_method = "affine".toList then
    match splitFirstComma kw with
    | none => false
    | some (aStr, bStr) =>
      match pyParseInt aStr, pyParseInt bStr with
      | some a, some _ => gcd a 26 = 1
      | _, _ => false
  else if cipher_method ∈ ["vigenere".toList, "beaufort".toList,
      "columnartransposition".toList, "columnar".toList, "playfair".toList] then
    pyIsAlphaStr (removeSpaces kw)
  else if cipher_method ∈ ["simplesubstitution".toList, "substitution".toList,
      "monoalphabetic".toList] then
    let clean_keyword := removeSpaces kw
    clean_keyword.length = 26 && pyIsAlphaStr clean_keyword
      && (clean_keyword.map pyToLower).dedup.length = 26
  else false

/-- `generate_affine_combinations` from `ciphers.py`: parse the pool to
integers, then for every `a` with `gcd(abs(a), 26) == 1` append `"a,b"` for
every `b`. -/
def generate_affine_combinations (keywords : List (List Char)) : List (List Char) :=
  let numbers := keywords.filterMap pyParseInt
  numbers.foldl (fun acc a =>
    if gcd ((a.natAbs : Int)) 26 = 1 then
      acc ++ numbers.map (fun b => intToChars a ++ ",".toList ++ intToChars b)
    else acc) []

/-- `generate_substitution_alphabet` from `ciphers.py`: keep the pool entries
that are 26 distinct letters (case-insensitively), verbatim. -/
def generate_substitution_alphabet (keywords : List (List Char)) : List (List Char) :=
  keywords.foldl (fun acc kw =>
    let clean_keyword := removeSpaces kw
    if clean_keyword.length = 26 ∧ pyIsAlphaStr clean_keyword
        ∧ (clean_keyword.map pyToLower).dedup.length = 26 then
      acc ++ [kw]
    else acc) []

/-- One result record of `test_all_cipher_combinations`. -/
structure TestResult where
  keyword : List Char
  cipher : List Char
  status : String
  result : List Char
deriving DecidableEq

/-- The record construction of `test_all_cipher_combinations`:
`'Success' if not result.startswith('Error') else 'Error'`. -/
def mkTestResult (kw cipher result : List Char) : TestResult :=
  { keyword := kw
    cipher := cipher
    status := if ("Error".toList).isPrefixOf result then "Error" else "Success"
    result := result }

end Ciphers

namespace DecryptorApp

/-- One displayed decryption outcome of `run_comprehensive_decryption_tests`
(the arguments of `display_result_in_ui`; persistence is an external
collaborator and not modelled). -/
structure Outcome where
  keyword : List Char
  result : List Char
  is_meaningful : Bool
  cipher_method : List Char
deriving DecidableEq

/-- The engine state threaded through `run_comprehensive_decryption_tests`:
the mutated `tested_pairs` set, the outcomes displayed so far, and the
`total_tests` / `new_tests` counters. -/
structure EngineState where
  tested_pairs : List (List Char × List Char)
  outcomes : List Outcome
  total_tests : Nat
  new_tests : Nat
deriving DecidableEq

/-- Python `set.add`: idempotent insertion. -/
def testedInsert (p : List Char × List Char) (s : List (List Char × List Char)) :
    List (List Char × List Char) :=
  if p ∈ s then s else s ++ [p]

/-- The keyword-free branch of the engine (reverse / rot13 / atbash):
one attempt with the empty key, skipped when already tested.  The
meaningfulness oracle (the external Gemini evaluation) is injected. -/
def noKeywordStep (oracle : List Char → Bool) (ciphertext m : List Char)
    (st : EngineState) : EngineState :=
  let current_pair := (([] : List Char), m)
  if current_pair ∈ st.tested_pairs then { st with total_tests := st.total_tests + 1 }
  else
    let result := Ciphers.apply_cipher ciphertext [] m
    let is_meaningful := if ¬ ("Error:".toList.isPrefixOf result) then oracle result else false
    { tested_pairs := testedInsert current_pair st.tested_pairs
      outcomes := st.outcomes ++ [⟨[], result, is_meaningful, m⟩]
      total_tests := st.total_tests + 1
      new_tests := st.new_tests + 1 }

/-- The generated-key branches of the engine (affine combinations and
substitution alphabets): no validity check, skip when already tested. -/
def genStep (oracle : List Char → Bool) (ciphertext m : List Char)
    (st : EngineState) (combo : List Char) : EngineState :=
  let current_pair := (combo, m)
  if current_pair ∈ st.tested_pairs then { st with total_tests := st.total_tests + 1 }
  else
    let result := Ciphers.apply_cipher ciphertext combo m
    let is_meaningful := if ¬ ("Error:".toList.isPrefixOf result) then oracle result else false
    { tested_pairs := testedInsert current_pair st.tested_pairs
      outcomes := st.outcomes ++ [⟨combo, result, is_meaningful, m⟩]
      total_tests := st.total_tests + 1
      new_tests := st.new_tests + 1 }

/-- The regular-keyword loop body of the engine: skip already-tested pairs,
silently mark invalid keys tested, otherwise attempt and record. -/
def regularStep (oracle : List Char → Bool) (ciphertext m : List Char)
    (st : EngineState) (kw : List Char) : EngineState :=
  let current_pair := (kw, m)
  if current_pair ∈ st.tested_pairs then { st with total_tests := st.total_tests + 1 }
  else if ¬ Ciphers.is_valid_keyword_for_cipher kw m then
    { st with
      tested_pairs := testedInsert current_pair st.tested_pairs
      total_tests := st.total_tests + 1 }
  else
    let result := Ciphers.apply_cipher ciphertext kw m
    let is_meaningful := if ¬ ("Error:".toList.isPrefixOf result) then oracle result else false
    { tested_pairs := testedInsert current_pair st.tested_pairs
      outcomes := st.outcomes ++ [⟨kw, result, is_meaningful, m⟩]
      total_tests := st.total_tests + 1
      new_tests := st.new_tests + 1 }

/-- The `cipher_methods` enumeration of `run_comprehensive_decryption_tests`. -/
def cipher_methods : List (List Char) :=
  ["caesar".toList, "rot13".toList, "atbash".toList, "vigenere".toList, "beaufort".toList,
   "simple_substitution".toList, "affine".toList, "reverse".toList,
   "columnar_transposition".toList, "rail_fence".toList, "playfair".toList]

/-- The per-method pass of `run_comprehensive_decryption_tests`. -/
def runMethodPass (oracle : List Char → Bool) (ciphertext : List Char)
    (keywords : List (List Char)) (st : EngineState) (m : List Char) : EngineState :=
  if m ∈ ["reverse".toList, "rot13".toList, "atbash".toList] then
    noKeywordStep oracle ciphertext m st
  else if m = "affine".toList then
    (Ciphers.generate_affine_combinations keywords).foldl (genStep oracle ciphertext m) st
  else if m = "simple_substitution".toList then
    (Ciphers.generate_substitution_alphabet keywords).foldl (genStep oracle ciphertext m) st
  else keywords.foldl (regularStep oracle ciphertext m) st

/-- `run_comprehensive_decryption_tests` from `decryptor_app.py`, over the
already-parsed keyword pool (the source first applies `parse_keywords` to its
string input and returns unchanged when the pool is empty; the UI display and
SQLite persistence are external collaborators, and the meaningfulness oracle
is injected as a function). -/
def run_comprehensive_decryption_tests (oracle : List Char → Bool) (ciphertext : List Char)
    (keywords : List (List Char)) (tested_pairs : List (List Char × List Char)) : EngineState :=
  let st0 : EngineState := ⟨tested_pairs, [], 0, 0⟩
  if keywords = [] then st0
  else cipher_methods.foldl (runMethodPass oracle ciphertext keywords) st0

end DecryptorApp

namespace SpecModel

open Ciphers

/-- Textbook columnar-transposition encryption as described by the spec: the
plaintext is written row-by-row into a `ceil(len/keylen) × keylen` grid and
the columns are read out in ascending alphabetical rank of the keyword
letters (stable on ties). -/
def columnarEncryptSpec (plaintext kw : List Char) : List Char :=
  let ck := (removeWhitespace kw).map pyToUpper
  let k := ck.length
  let num_rows := (plaintext.length + (k - 1)) / k
  let column_order := (sortPairs ck.enum).map Prod.fst
  (column_order.map (fun c =>
    (List.range num_rows).filterMap (fun r => plaintext[r * k + c]?))).flatten

/-- The decryption fill described by the claim and the spec table: the
ciphertext is consumed **in ascending alphabetical-rank order** of the
keyword letters, so the chunk of rank `ρ` lands in column `column_order[ρ]`
— equivalently, the cell in row `r` and column `c` holds ciphertext
character `rank(c) * num_rows + r` — then the plaintext is read row-by-row
with the unfilled padding cells (at the tail) removed. -/
def columnarClaimedSpec (text kw : List Char) : List Char :=
  let ck := (removeWhitespace kw).map pyToUpper
  let k := ck.length
  let num_rows := (text.length + (k - 1)) / k
  let column_order := (sortPairs ck.enum).map Prod.fst
  ((List.range num_rows).map (fun r =>
    (List.range k).filterMap (fun c =>
      let ti := column_order.indexOf c * num_rows + r
      if ti < text.length then some (text.getD ti ' ') else none))).flatten

/-- First-occurrence deduplication, following the spec's words
"deduplicated keyword letters". -/
def dedupKeepFirst : List Char → List Char
  | [] => []
  | c :: rest => c :: dedupKeepFirst (rest.filter (fun d => d ≠ c))
termination_by l => l.length
decreasing_by
  simp only [List.length_cons]
  exact Nat.lt_succ_of_le (List.length_filter_le _ _)

/-- The spec's Playfair grid: deduplicated keyword letters (J already folded
to I by the cleaning step) followed by the remaining alphabet. -/
def pfGridSpec (ck : List Char) : List Char :=
  let kl := dedupKeepFirst (ck.filter (fun c => c ∈ pfAlphabet))
  kl ++ pfAlphabet.filter (fun c => c ∉ kl)

/-- The spec's reference Playfair decryption (§4.2): grid from deduplicated
keyword letters followed by the remaining alphabet; digraphs decrypted by
the row / column / rectangle rules; non-grid digraphs pass through; odd
cleaned length fails. -/
def playfairReference (text kw : List Char) : Except (List Char) (List Char) :=
  if kw = [] ∨ ¬ pyIsAlphaStr (removeSpaces kw) then
    .error ("Playfair cipher requires an alphabetic keyword, got '".toList ++ kw ++ "'".toList)
  else
    let grid := pfGridSpec (pfCleanKeyword kw)
    let ct := pfCleanText text
    if ct.length % 2 ≠ 0 then .error "Playfair cipher requires even-length text".toList
    else .ok (pfPairs grid ct)

end SpecModel

namespace RailModel

/-- The list of `chars_in_rail` values computed by `rail_fence_cipher`, one
per rail. -/
def lensOf (r n : Nat) : List Nat := (List.range r).map (Ciphers.railLen r n)

/-- The ciphertext offset at which rail `j` starts (the characters consumed
by the rails before it). -/
def startOf (r n j : Nat) : Nat := ((lensOf r n).take j).sum

/-- How many earlier zig-zag positions share the rail of position `i` (the
value of `rail_indices[rail]` when the reconstruction loop reaches `i`). -/
def occOf (c r i : Nat) : Nat :=
  (List.range i).countP (fun t => decide (Ciphers.zigRail c r t = Ciphers.zigRail c r i))

/-- The ciphertext index from which output position `i` is filled. -/
def sigma (r n i : Nat) : Nat :=
  startOf r n (Ciphers.zigRail (2*(r-1)) r i) + occOf (2*(r-1)) r i

end RailModel

/-- C1: the source's columnar fill diverges from the claimed rank-order fill.
For keyword "CAB" (whose rank permutation is a 3-cycle) and ciphertext
"becfad", the code's `column_order.index(col_priority)` lookup puts the
chunk of original column `p` into the grid column holding letter `p`'s
rank, producing "cabfde", whereas the claimed fill — ciphertext consumed in
ascending alphabetical-rank order of the keyword letters — yields
"abcdef". -/
theorem c1_columnar_fill_divergence :
    Ciphers.columnar_transposition_cipher "becfad".toList "CAB".toList
        = Except.ok "cabfde".toList
      ∧ SpecModel.columnarClaimedSpec "becfad".toList "CAB".toList = "abcdef".toList
      ∧ "cabfde".toList ≠ "abcdef".toList := by
  refine ⟨by rfl, by decide, by decide⟩

/-- C3: columnar transposition fails the round-trip with its textbook
encryption counterpart even on an all-letter text whose length is a
multiple of the keyword length: encrypting "abcdef" under "CAB" gives
"becfad", which the code decrypts to "cabfde", not "abcdef". -/
theorem c3_columnar_roundtrip_failure :
    SpecModel.columnarEncryptSpec "abcdef".toList "CAB".toList = "becfad".toList
      ∧ Ciphers.columnar_transposition_cipher
          (SpecModel.columnarEncryptSpec "abcdef".toList "CAB".toList) "CAB".toList
          = Except.ok "cabfde".toList
      ∧ "cabfde".toList ≠ "abcdef".toList := by
  refine ⟨by decide, by rfl, by decide⟩

/-- C2 counterexample: `reverse_cipher` moves non-letter characters, so the
non-letter '!' at index 1 of "a!" does not appear unchanged at index 1 of
the output. -/
theorem c2_reverse_counterexample :
    Ciphers.reverse_cipher "a!".toList = "!a".toList
      ∧ Ciphers.isLetterCh '!' = false
      ∧ "a!".toList.getD 1 ' ' = '!'
      ∧ (Ciphers.reverse_cipher "a!".toList).getD 1 ' ' ≠ '!' := by
  refine ⟨by decide, by decide, by decide, by decide⟩

namespace Ciphers

theorem char_toNat_ofNat (n : Nat) (h : n < 55296) : (Char.ofNat n).toNat = n := by
  have hv : n.isValidChar := Or.inl h
  simp [Char.ofNat, hv, Char.ofNatAux, Char.toNat, UInt32.toNat, UInt32.ofNat',
    BitVec.toNat_ofNatLt]

theorem isLowerCh_iff (c : Char) : isLowerCh c = true ↔ (97 ≤ c.toNat ∧ c.toNat ≤ 122) := by
  constructor
  · intro h
    simp [isLowerCh] at h
    exact ⟨h.1, h.2⟩
  · intro h
    simp [isLowerCh]
    exact ⟨h.1, h.2⟩

theorem isUpperCh_iff (c : Char) : isUpperCh c = true ↔ (65 ≤ c.toNat ∧ c.toNat ≤ 90) := by
  constructor
  · intro h
    simp [isUpperCh] at h
    exact ⟨h.1, h.2⟩
  · intro h
    simp [isUpperCh]
    exact ⟨h.1, h.2⟩

theorem isLetterCh_false (c : Char) (h : isLetterCh c = false) :
    isLowerCh c = false ∧ isUpperCh c = false := by
  simpa [isLetterCh] using h

theorem isLetterCh_pyToLower (c : Char) (h : isLetterCh c = true) :
    isLetterCh (pyToLower c) = true := by
  unfold pyToLower
  by_cases hu : isUpperCh c = true
  · rw [if_pos hu]
    have hb := (isUpperCh_iff c).mp hu
    have hl : isLowerCh (Char.ofNat (c.toNat + 32)) = true := by
      rw [isLowerCh_iff, char_toNat_ofNat _ (by omega)]
      omega
    simp [isLetterCh, hl]
  · rw [if_neg hu]
    exact h

theorem isLetterCh_pyToUpper (c : Char) (h : isLetterCh c = true) :
    isLetterCh (pyToUpper c) = true := by
  unfold pyToUpper
  by_cases hl : isLowerCh c = true
  · rw [if_pos hl]
    have hb := (isLowerCh_iff c).mp hl
    have hu : isUpperCh (Char.ofNat (c.toNat - 32)) = true := by
      rw [isUpperCh_iff, char_toNat_ofNat _ (by omega)]
      omega
    simp [isLetterCh, hu]
  · rw [if_neg hl]
    exact h

theorem map_getD_nonletter (f : Char → Char)
    (hf : ∀ c, isLetterCh c = false → f c = c) (l : List Char) (i : Nat)
    (h : isLetterCh (l.getD i ' ') = false) :
    (l.map f).getD i ' ' = l.getD i ' ' := by
  rcases Nat.lt_or_ge i l.length with hi | hi
  · rw [List.getD_eq_getElem _ _ (by simpa using hi), List.getElem_map]
    rw [List.getD_eq_getElem _ _ hi] at h ⊢
    exact hf _ h
  · rw [List.getD_eq_default _ _ (by simpa using hi), List.getD_eq_default _ _ hi]

theorem vigenereAux_length (kwInts : List Int) (klen : Nat) (l : List Char) :
    ∀ idx : Nat, (vigenereAux kwInts klen l idx).length = l.length := by
  induction l with
  | nil => intro idx; rfl
  | cons ch rest ih =>
    intro idx
    unfold vigenereAux
    split
    · simpa using ih (idx + 1)
    · split
      · simpa using ih (idx + 1)
      · simpa using ih idx

theorem vigenereAux_getD (kwInts : List Int) (klen : Nat) (l : List Char) :
    ∀ idx i : Nat, isLetterCh (l.getD i ' ') = false →
      (vigenereAux kwInts klen l idx).getD i ' ' = l.getD i ' ' := by
  induction l with
  | nil => intro idx i _; rfl
  | cons ch rest ih =>
    intro idx i h
    unfold vigenereAux
    by_cases hlo : isLowerCh ch = true
    · rw [if_pos hlo]
      match i with
      | 0 =>
        exfalso
        have : isLetterCh ch = true := by simp [isLetterCh, hlo]
        simp [List.getD] at h
        rw [h] at this
        cases this
      | i + 1 =>
        simpa using ih (idx + 1) i (by simpa using h)
    · rw [if_neg hlo]
      by_cases hup : isUpperCh ch = true
      · rw [if_pos hup]
        match i with
        | 0 =>
          exfalso
          have : isLetterCh ch = true := by simp [isLetterCh, hup]
          simp [List.getD] at h
          rw [h] at this
          cases this
        | i + 1 =>
          simpa using ih (idx + 1) i (by simpa using h)
      · rw [if_neg hup]
        match i with
        | 0 => rfl
        | i + 1 => simpa using ih idx i (by simpa using h)

theorem beaufortAux_length (kwInts : List Int) (klen : Nat) (l : List Char) :
    ∀ idx : Nat, (beaufortAux kwInts klen l idx).length = l.length := by
  induction l with
  | nil => intro idx; rfl
  | cons ch rest ih =>
    intro idx
    unfold beaufortAux
    split
    · simpa using ih (idx + 1)
    · split
      · simpa using ih (idx + 1)
      · simpa using ih idx

theorem beaufortAux_getD (kwInts : List Int) (klen : Nat) (l : List Char) :
    ∀ idx i : Nat, isLetterCh (l.getD i ' ') = false →
      (beaufortAux kwInts klen l idx).getD i ' ' = l.getD i ' ' := by
  induction l with
  | nil => intro idx i _; rfl
  | cons ch rest ih =>
    intro idx i h
    unfold beaufortAux
    by_cases hlo : isLowerCh ch = true
    · rw [if_pos hlo]
      match i with
      | 0 =>
        exfalso
        have : isLetterCh ch = true := by simp [isLetterCh, hlo]
        simp [List.getD] at h
        rw [h] at this
        cases this
      | i + 1 =>
        simpa using ih (idx + 1) i (by simpa using h)
    · rw [if_neg hlo]
      by_cases hup : isUpperCh ch = true
      · rw [if_pos hup]
        match i with
        | 0 =>
          exfalso
          have : isLetterCh ch = true := by simp [isLetterCh, hup]
          simp [List.getD] at h
          rw [h] at this
          cases this
        | i + 1 =>
          simpa using ih (idx + 1) i (by simpa using h)
      · rw [if_neg hup]
        match i with
        | 0 => rfl
        | i + 1 => simpa using ih idx i (by simpa using h)

theorem transLookup_nonletter (alphabet target : List Char)
    (halpha : ∀ a ∈ alphabet, isLetterCh a = true) (c : Char)
    (hc : isLetterCh c = false) :
    transLookup (alphabet.zip target) c = c := by
  unfold transLookup
  have hnone : (alphabet.zip target).reverse.find? (fun p => p.1 == c) = none := by
    rw [List.find?_eq_none]
    intro p hp
    have hpz := List.of_mem_zip (List.mem_reverse.mp hp)
    have hlet := halpha p.1 hpz.1
    simp only [beq_iff_eq]
    intro heq
    rw [heq] at hlet
    rw [hlet] at hc
    cases hc
  rw [hnone]

end Ciphers

/-- C5 counterexample: an unknown method name with an empty keyword is
answered by the empty-keyword rejection, not by the outcome enumerating the
valid method names. -/
theorem c5_unknown_method_counterexample :
    Ciphers.apply_cipher "x".toList "".toList "foo".toList
        = "Error: Foo cipher requires a keyword.".toList
      ∧ Ciphers.apply_cipher "x".toList "".toList "foo".toList
        ≠ "Error: Unknown cipher method 'foo'. Available ciphers: ".toList
            ++ Ciphers.availableCiphersMsg := by
  refine ⟨by decide, by decide⟩

/-- C2 (amended): every transform is a pure function (the embedding is
functional), and for the per-letter substitution-family ciphers — Caesar,
Rot13, Atbash, Vigenère, Beaufort, SimpleSubstitution, Affine — every
non-letter character of the input appears unchanged at the same index of
the output (length preserved, keystream not advanced).  The transposition
ciphers (Reverse, ColumnarTransposition, RailFence) and Playfair rearrange
or drop non-letters, so they are excluded (see the counterexample). -/
theorem c2_nonletter_positional_invariance :
    (∀ (text : List Char) (shift : Int) (i : Nat),
      Ciphers.isLetterCh (text.getD i ' ') = false →
        (Ciphers.caesar_cipher text shift).length = text.length
        ∧ (Ciphers.caesar_cipher text shift).getD i ' ' = text.getD i ' ')
    ∧ (∀ (text : List Char) (i : Nat),
      Ciphers.isLetterCh (text.getD i ' ') = false →
        (Ciphers.rot13_cipher text).length = text.length
        ∧ (Ciphers.rot13_cipher text).getD i ' ' = text.getD i ' ')
    ∧ (∀ (text : List Char) (i : Nat),
      Ciphers.isLetterCh (text.getD i ' ') = false →
        (Ciphers.atbash_cipher text).length = text.length
        ∧ (Ciphers.atbash_cipher text).getD i ' ' = text.getD i ' ')
    ∧ (∀ (text kw res : List Char) (i : Nat),
      Ciphers.vigenere_cipher text kw = Except.ok res →
      Ciphers.isLetterCh (text.getD i ' ') = false →
        res.length = text.length ∧ res.getD i ' ' = text.getD i ' ')
    ∧ (∀ (text kw res : List Char) (i : Nat),
      Ciphers.beaufort_cipher text kw = Except.ok res →
      Ciphers.isLetterCh (text.getD i ' ') = false →
        res.length = text.length ∧ res.getD i ' ' = text.getD i ' ')
    ∧ (∀ (text alphabet res : List Char) (i : Nat),
      Ciphers.simple_substitution_cipher text alphabet = Except.ok res →
      Ciphers.isLetterCh (text.getD i ' ') = false →
        res.length = text.length ∧ res.getD i ' ' = text.getD i ' ')
    ∧ (∀ (text kw res : List Char) (i : Nat),
      Ciphers.affine_cipher text kw = Except.ok res →
      Ciphers.isLetterCh (text.getD i ' ') = false →
        res.length = text.length ∧ res.getD i ' ' = text.getD i ' ') := by
  have mapLetterwise : ∀ (f : Char → Char),
      (∀ c, Ciphers.isLetterCh c = false → f c = c) →
      ∀ (text : List Char) (i : Nat), Ciphers.isLetterCh (text.getD i ' ') = false →
        (text.map f).length = text.length ∧ (text.map f).getD i ' ' = text.getD i ' ' := by
    intro f hf text i h
    exact ⟨by simp, Ciphers.map_getD_nonletter f hf text i h⟩
  have caesarInv : ∀ (text : List Char) (shift : Int) (i : Nat),
      Ciphers.isLetterCh (text.getD i ' ') = false →
        (Ciphers.caesar_cipher text shift).length = text.length
        ∧ (Ciphers.caesar_cipher text shift).getD i ' ' = text.getD i ' ' := by
    intro text shift i h
    unfold Ciphers.caesar_cipher
    refine mapLetterwise _ ?_ text i h
    intro c hc
    have h2 := Ciphers.isLetterCh_false c hc
    simp [h2.1, h2.2]
  refine ⟨caesarInv, ?_, ?_, ?_, ?_, ?_, ?_⟩
  · intro text i h
    exact caesarInv text 13 i h
  · intro text i h
    unfold Ciphers.atbash_cipher
    refine mapLetterwise _ ?_ text i h
    intro c hc
    have h2 := Ciphers.isLetterCh_false c hc
    simp [h2.1, h2.2]
  · intro text kw res i hok h
    unfold Ciphers.vigenere_cipher at hok
    split at hok
    · cases hok
    · simp only [Except.ok.injEq] at hok
      subst hok
      exact ⟨Ciphers.vigenereAux_length _ _ text 0,
        Ciphers.vigenereAux_getD _ _ text 0 i h⟩
  · intro text kw res i hok h
    unfold Ciphers.beaufort_cipher at hok
    split at hok
    · cases hok
    · simp only [Except.ok.injEq] at hok
      subst hok
      exact ⟨Ciphers.beaufortAux_length _ _ text 0,
        Ciphers.beaufortAux_getD _ _ text 0 i h⟩
  · intro text alphabet res i hok h
    unfold Ciphers.simple_substitution_cipher at hok
    split at hok
    · cases hok
    · rename_i hcond
      simp only [Except.ok.injEq] at hok
      subst hok
      push_neg at hcond
      have halpha : ∀ a ∈ alphabet, Ciphers.isLetterCh a = true := by
        have := hcond.2.2
        simp only [Ciphers.pyIsAlphaStr, Bool.and_eq_true, List.all_eq_true] at this
        intro a ha
        exact this.2 a ha
      have stepLower : ∀ c, Ciphers.isLetterCh c = false →
          Ciphers.transLookup ((alphabet.map Ciphers.pyToLower).zip Ciphers.ascii_lowercase) c
            = c := by
        intro c hc
        refine Ciphers.transLookup_nonletter _ _ ?_ c hc
        intro a ha
        obtain ⟨b, hb, rfl⟩ := List.mem_map.mp ha
        exact Ciphers.isLetterCh_pyToLower b (halpha b hb)
      have stepUpper : ∀ c, Ciphers.isLetterCh c = false →
          Ciphers.transLookup ((alphabet.map Ciphers.pyToUpper).zip Ciphers.ascii_uppercase) c
            = c := by
        intro c hc
        refine Ciphers.transLookup_nonletter _ _ ?_ c hc
        intro a ha
        obtain ⟨b, hb, rfl⟩ := List.mem_map.mp ha
        exact Ciphers.isLetterCh_pyToUpper b (halpha b hb)
      have e1 := mapLetterwise _ stepLower text i h
      have h2 : Ciphers.isLetterCh
          ((text.map (Ciphers.transLookup
            ((alphabet.map Ciphers.pyToLower).zip Ciphers.ascii_lowercase))).getD i ' ')
          = false := by
        rw [e1.2]
        exact h
      have e2 := mapLetterwise _ stepUpper _ i h2
      refine ⟨by simpa using (e2.1.trans e1.1), by rw [e2.2, e1.2]⟩
  · intro text kw res i hok h
    unfold Ciphers.affine_cipher at hok
    split at hok
    · cases hok
    · split at hok
      · split at hok
        · cases hok
        · split at hok
          · cases hok
          · simp only [Except.ok.injEq] at hok
            subst hok
            refine mapLetterwise _ ?_ text i h
            intro c hc
            have h2 := Ciphers.isLetterCh_false c hc
            simp [h2.1, h2.2]
      · cases hok

/-- Witness for the amended C2: the Vigenère conjunct applied at the
concrete input "a !" with keyword "key". -/
theorem c2_nonletter_positional_invariance_witness :
    ("q !".toList).getD 2 ' ' = "a !".toList.getD 2 ' ' :=
  (c2_nonletter_positional_invariance.2.2.2.1 "a !".toList "key".toList "q !".toList 2
    (by rfl) (by decide)).2

namespace DecryptorApp

theorem testedInsert_mem_mono (p q : List Char × List Char)
    (s : List (List Char × List Char)) (h : p ∈ s) : p ∈ testedInsert q s := by
  unfold testedInsert
  split
  · exact h
  · exact List.mem_append_left _ h

theorem foldl_preserves {α β : Type} (f : β → α → β) (P : β → Prop)
    (hf : ∀ st a, P st → P (f st a)) :
    ∀ (l : List α) (st : β), P st → P (l.foldl f st) := by
  intro l
  induction l with
  | nil => intro st h; exact h
  | cons a rest ih =>
    intro st h
    exact ih (f st a) (hf st a h)

theorem noKeywordStep_tested_mono (oracle : List Char → Bool) (ct m : List Char)
    (st : EngineState) (p : List Char × List Char) (h : p ∈ st.tested_pairs) :
    p ∈ (noKeywordStep oracle ct m st).tested_pairs := by
  simp only [noKeywordStep]
  split
  · exact h
  · exact testedInsert_mem_mono p _ _ h

theorem genStep_tested_mono (oracle : List Char → Bool) (ct m : List Char)
    (st : EngineState) (combo : List Char) (p : List Char × List Char)
    (h : p ∈ st.tested_pairs) :
    p ∈ (genStep oracle ct m st combo).tested_pairs := by
  simp only [genStep]
  split
  · exact h
  · exact testedInsert_mem_mono p _ _ h

theorem regularStep_tested_mono (oracle : List Char → Bool) (ct m : List Char)
    (st : EngineState) (kw : List Char) (p : List Char × List Char)
    (h : p ∈ st.tested_pairs) :
    p ∈ (regularStep oracle ct m st kw).tested_pairs := by
  simp only [regularStep]
  split
  · exact h
  · split
    · exact testedInsert_mem_mono p _ _ h
    · exact testedInsert_mem_mono p _ _ h

theorem runMethodPass_tested_mono (oracle : List Char → Bool) (ct : List Char)
    (keywords : List (List Char)) (st : EngineState) (m : List Char)
    (p : List Char × List Char) (h : p ∈ st.tested_pairs) :
    p ∈ (runMethodPass oracle ct keywords st m).tested_pairs := by
  unfold runMethodPass
  split
  · exact noKeywordStep_tested_mono oracle ct m st p h
  · split
    · exact foldl_preserves _ (fun s => p ∈ s.tested_pairs)
        (fun s a hs => genStep_tested_mono oracle ct m s a p hs) _ st h
    · split
      · exact foldl_preserves _ (fun s => p ∈ s.tested_pairs)
          (fun s a hs => genStep_tested_mono oracle ct m s a p hs) _ st h
      · exact foldl_preserves _ (fun s => p ∈ s.tested_pairs)
          (fun s a hs => regularStep_tested_mono oracle ct m s a p hs) _ st h

end DecryptorApp

/-- C4: in every engine pass, a candidate key already in the tested set
produces no outcome and bumps only the skipped tally (total minus new); an
untested key failing `is_valid` is inserted and produces no outcome; any
other key yields exactly one outcome and is inserted.  Concretely, the
Caesar pass over pool ["13"] with ("13", "caesar") already tested produces
zero new outcomes and increments the skipped count by exactly one. -/
theorem c4_engine_dedup_trichotomy :
    (∀ (oracle : List Char → Bool) (ct m kw : List Char) (st : DecryptorApp.EngineState),
      (kw, m) ∈ st.tested_pairs →
        (DecryptorApp.regularStep oracle ct m st kw).outcomes = st.outcomes
        ∧ (DecryptorApp.regularStep oracle ct m st kw).tested_pairs = st.tested_pairs
        ∧ (DecryptorApp.regularStep oracle ct m st kw).total_tests = st.total_tests + 1
        ∧ (DecryptorApp.regularStep oracle ct m st kw).new_tests = st.new_tests)
    ∧ (∀ (oracle : List Char → Bool) (ct m kw : List Char) (st : DecryptorApp.EngineState),
      (kw, m) ∉ st.tested_pairs →
      Ciphers.is_valid_keyword_for_cipher kw m = false →
        (DecryptorApp.regularStep oracle ct m st kw).outcomes = st.outcomes
        ∧ (DecryptorApp.regularStep oracle ct m st kw).tested_pairs
            = DecryptorApp.testedInsert (kw, m) st.tested_pairs
        ∧ (DecryptorApp.regularStep oracle ct m st kw).total_tests = st.total_tests + 1
        ∧ (DecryptorApp.regularStep oracle ct m st kw).new_tests = st.new_tests)
    ∧ (∀ (oracle : List Char → Bool) (ct m kw : List Char) (st : DecryptorApp.EngineState),
      (kw, m) ∉ st.tested_pairs →
      Ciphers.is_valid_keyword_for_cipher kw m = true →
        (∃ o : DecryptorApp.Outcome,
          (DecryptorApp.regularStep oracle ct m st kw).outcomes = st.outcomes ++ [o])
        ∧ (DecryptorApp.regularStep oracle ct m st kw).tested_pairs
            = DecryptorApp.testedInsert (kw, m) st.tested_pairs
        ∧ (DecryptorApp.regularStep oracle ct m st kw).total_tests = st.total_tests + 1
        ∧ (DecryptorApp.regularStep oracle ct m st kw).new_tests = st.new_tests + 1)
    ∧ ((DecryptorApp.runMethodPass (fun _ => false) "Khoor".toList ["13".toList]
          ⟨[("13".toList, "caesar".toList)], [], 0, 0⟩ "caesar".toList).outcomes = []
      ∧ (DecryptorApp.runMethodPass (fun _ => false) "Khoor".toList ["13".toList]
          ⟨[("13".toList, "caesar".toList)], [], 0, 0⟩ "caesar".toList).new_tests = 0
      ∧ (DecryptorApp.runMethodPass (fun _ => false) "Khoor".toList ["13".toList]
          ⟨[("13".toList, "caesar".toList)], [], 0, 0⟩ "caesar".toList).total_tests = 1) := by
  refine ⟨?_, ?_, ?_, ?_⟩
  · intro oracle ct m kw st h
    simp [DecryptorApp.regularStep, h]
  · intro oracle ct m kw st h hv
    simp [DecryptorApp.regularStep, h, hv]
  · intro oracle ct m kw st h hv
    refine ⟨⟨⟨kw, Ciphers.apply_cipher ct kw m,
        (if ¬("Error:".toList.isPrefixOf (Ciphers.apply_cipher ct kw m)) = true
          then oracle (Ciphers.apply_cipher ct kw m) else false), m⟩, ?_⟩, ?_, ?_, ?_⟩
      <;> simp [DecryptorApp.regularStep, h, hv]
  · refine ⟨by decide, by decide, by decide⟩

/-- Witness for C4: the already-tested implication applied at a concrete
state containing ("13", "caesar"). -/
theorem c4_engine_dedup_trichotomy_witness :
    (DecryptorApp.regularStep (fun _ => false) "Khoor".toList "caesar".toList
      ⟨[("13".toList, "caesar".toList)], [], 0, 0⟩ "13".toList).outcomes = [] :=
  (c4_engine_dedup_trichotomy.1 (fun _ => false) "Khoor".toList "caesar".toList "13".toList
    ⟨[("13".toList, "caesar".toList)], [], 0, 0⟩ (by decide)).1

/-- C9: the tested set only grows during an engine run — every pair present
before the run is still present after it — and inserting an
already-present pair leaves the set unchanged. -/
theorem c9_testedset_monotonicity :
    (∀ (oracle : List Char → Bool) (ct : List Char) (keywords : List (List Char))
        (tested : List (List Char × List Char)) (p : List Char × List Char),
      p ∈ tested →
        p ∈ (DecryptorApp.run_comprehensive_decryption_tests oracle ct keywords
          tested).tested_pairs)
    ∧ (∀ (s : List (List Char × List Char)) (p : List Char × List Char),
      p ∈ s → DecryptorApp.testedInsert p s = s) := by
  constructor
  · intro oracle ct keywords tested p h
    unfold DecryptorApp.run_comprehensive_decryption_tests
    split
    · exact h
    · exact DecryptorApp.foldl_preserves _ (fun s => p ∈ s.tested_pairs)
        (fun s m hs => DecryptorApp.runMethodPass_tested_mono oracle ct keywords s m p hs)
        DecryptorApp.cipher_methods ⟨tested, [], 0, 0⟩ h
  · intro s p h
    unfold DecryptorApp.testedInsert
    exact if_pos h

/-- Witness for C9: monotonicity and idempotent insertion at a concrete
tested set. -/
theorem c9_testedset_monotonicity_witness :
    ("13".toList, "caesar".toList) ∈
      (DecryptorApp.run_comprehensive_decryption_tests (fun _ => false) "Khoor".toList
        ["13".toList] [("13".toList, "caesar".toList)]).tested_pairs
    ∧ DecryptorApp.testedInsert ("13".toList, "caesar".toList)
        [("13".toList, "caesar".toList)] = [("13".toList, "caesar".toList)] :=
  ⟨c9_testedset_monotonicity.1 (fun _ => false) "Khoor".toList ["13".toList]
      [("13".toList, "caesar".toList)] ("13".toList, "caesar".toList) (by decide),
    c9_testedset_monotonicity.2 [("13".toList, "caesar".toList)]
      ("13".toList, "caesar".toList) (by decide)⟩

theorem apply_cipher_empty_keyword (ct m : List Char) (hct : ct ≠ [])
    (hm : Ciphers.normalizeMethod m ∉ ["reverse".toList, "rot13".toList, "atbash".toList]) :
    Ciphers.apply_cipher ct [] m
      = "Error: ".toList ++ Ciphers.pyTitle (Ciphers.normalizeMethod m)
          ++ " cipher requires a keyword.".toList := by
  simp only [List.mem_cons, List.not_mem_nil, or_false, not_or] at hm
  obtain ⟨h1, h2, h3⟩ := hm
  simp only [Ciphers.apply_cipher, if_neg hct]
  rw [if_neg h1, if_neg h2, if_neg h3]
  simp

/-- C5 (amended): `apply_cipher` is a total function returning a string —
no exception crosses its boundary.  Empty ciphertext is rejected
immediately; the keyword argument is ignored by the keyword-free ciphers;
an empty keyword is rejected before any transform runs, for every method
that is not keyword-free (including unknown names — this rejection
precedes the unknown-method enumeration); an unknown method name with a
non-empty keyword yields the outcome enumerating the valid method names. -/
theorem c5_apply_cipher_boundary :
    (∀ (kw m : List Char),
      Ciphers.apply_cipher [] kw m = "Error: No ciphertext provided.".toList)
    ∧ (∀ (ct kw kw' m : List Char),
      Ciphers.normalizeMethod m ∈ ["reverse".toList, "rot13".toList, "atbash".toList] →
        Ciphers.apply_cipher ct kw m = Ciphers.apply_cipher ct kw' m)
    ∧ (∀ (ct m : List Char), ct ≠ [] →
      Ciphers.normalizeMethod m ∉ ["reverse".toList, "rot13".toList, "atbash".toList] →
        Ciphers.apply_cipher ct [] m
          = "Error: ".toList ++ Ciphers.pyTitle (Ciphers.normalizeMethod m)
              ++ " cipher requires a keyword.".toList)
    ∧ (∀ (ct kw m : List Char), ct ≠ [] → kw ≠ [] →
      Ciphers.normalizeMethod m ∉
        ["reverse".toList, "rot13".toList, "atbash".toList, "caesar".toList,
         "vigenere".toList, "beaufort".toList, "simplesubstitution".toList,
         "substitution".toList, "monoalphabetic".toList, "affine".toList,
         "columnartransposition".toList, "columnar".toList, "railfence".toList,
         "zigzag".toList, "playfair".toList] →
        Ciphers.apply_cipher ct kw m
          = "Error: Unknown cipher method '".toList ++ Ciphers.normalizeMethod m
              ++ "'. Available ciphers: ".toList ++ Ciphers.availableCiphersMsg) := by
  refine ⟨?_, ?_, ?_, ?_⟩
  · intro kw m
    simp [Ciphers.apply_cipher]
  · intro ct kw kw' m hm
    by_cases hct : ct = []
    · simp [Ciphers.apply_cipher, hct]
    · simp only [List.mem_cons, List.not_mem_nil, or_false] at hm
      rcases hm with h | h | h <;> simp [Ciphers.apply_cipher, hct, h]
  · intro ct m hct hm
    exact apply_cipher_empty_keyword ct m hct hm
  · intro ct kw m hct hkw hm
    simp only [List.mem_cons, List.not_mem_nil, or_false, not_or] at hm
    obtain ⟨h1, h2, h3, h4, h5, h6, h7, h8, h9, h10, h11, h12, h13, h14, h15⟩ := hm
    simp only [Ciphers.apply_cipher, if_neg hct]
    rw [if_neg h1, if_neg h2, if_neg h3, if_neg hkw, if_neg h4, if_neg h5, if_neg h6,
      if_neg (show ¬ Ciphers.normalizeMethod m ∈ ["simplesubstitution".toList,
        "substitution".toList, "monoalphabetic".toList] by
          simp only [List.mem_cons, List.not_mem_nil, or_false, not_or]
          exact ⟨h7, h8, h9⟩),
      if_neg h10,
      if_neg (show ¬ Ciphers.normalizeMethod m ∈ ["columnartransposition".toList,
        "columnar".toList] by
          simp only [List.mem_cons, List.not_mem_nil, or_false, not_or]
          exact ⟨h11, h12⟩),
      if_neg (show ¬ Ciphers.normalizeMethod m ∈ ["railfence".toList, "zigzag".toList] by
          simp only [List.mem_cons, List.not_mem_nil, or_false, not_or]
          exact ⟨h13, h14⟩),
      if_neg h15]

/-- Witness for the amended C5: the unknown-method conjunct applied at
ciphertext "x", keyword "k", method "foo". -/
theorem c5_apply_cipher_boundary_witness :
    Ciphers.apply_cipher "x".toList "k".toList "foo".toList
      = "Error: Unknown cipher method '".toList ++ Ciphers.normalizeMethod "foo".toList
          ++ "'. Available ciphers: ".toList ++ Ciphers.availableCiphersMsg :=
  c5_apply_cipher_boundary.2.2.2 "x".toList "k".toList "foo".toList
    (by decide) (by decide) (by decide)

/-- C6 (amended): every outcome record of `test_all_cipher_combinations`
has the same four-field shape whether the attempt failed or succeeded,
differing only in `status` and `result`; the only statuses are "Success"
and "Error", assigned by testing the prefix "Error" of the result text, so
a validation failure (e.g. a rejected empty keyword) is recorded with the
non-Success status "Error" carrying the diagnostic message, while a
hypothetical unexpected internal fault ("Unexpected error: ...") would be
recorded as "Success", not "UnexpectedError" (see the counterexample). -/
theorem c6_outcome_record_shape :
    ∀ (kw cipher ct : List Char),
      (Ciphers.mkTestResult kw cipher (Ciphers.apply_cipher ct kw cipher)).keyword = kw
      ∧ (Ciphers.mkTestResult kw cipher (Ciphers.apply_cipher ct kw cipher)).cipher = cipher
      ∧ (Ciphers.mkTestResult kw cipher (Ciphers.apply_cipher ct kw cipher)).result
          = Ciphers.apply_cipher ct kw cipher
      ∧ ((Ciphers.mkTestResult kw cipher (Ciphers.apply_cipher ct kw cipher)).status = "Success"
          ∨ (Ciphers.mkTestResult kw cipher (Ciphers.apply_cipher ct kw cipher)).status = "Error")
      ∧ ((Ciphers.mkTestResult kw cipher (Ciphers.apply_cipher ct kw cipher)).status = "Error"
          ↔ ("Error".toList).isPrefixOf (Ciphers.apply_cipher ct kw cipher) = true)
      ∧ (ct ≠ [] → kw = [] →
          Ciphers.normalizeMethod cipher ∉
            ["reverse".toList, "rot13".toList, "atbash".toList] →
          (Ciphers.mkTestResult kw cipher (Ciphers.apply_cipher ct kw cipher)).status
            = "Error") := by
  intro kw cipher ct
  refine ⟨rfl, rfl, rfl, ?_, ?_, ?_⟩
  · unfold Ciphers.mkTestResult
    split
    · exact Or.inr rfl
    · exact Or.inl rfl
  · unfold Ciphers.mkTestResult
    constructor
    · intro h
      by_cases hp : ("Error".toList).isPrefixOf (Ciphers.apply_cipher ct kw cipher) = true
      · exact hp
      · simp only [hp] at h
        simp at h
    · intro hp
      simp only [hp]
      rfl
  · intro hct hkw hm
    subst hkw
    unfold Ciphers.mkTestResult
    rw [apply_cipher_empty_keyword ct cipher hct hm]
    have hpre : ("Error".toList).isPrefixOf
        ("Error: ".toList ++ Ciphers.pyTitle (Ciphers.normalizeMethod cipher)
          ++ " cipher requires a keyword.".toList) = true := by
      have heq : ("Error: ".toList : List Char)
          ++ Ciphers.pyTitle (Ciphers.normalizeMethod cipher)
          ++ " cipher requires a keyword.".toList
          = "Error".toList ++ (": ".toList
            ++ Ciphers.pyTitle (Ciphers.normalizeMethod cipher)
            ++ " cipher requires a keyword.".toList) := by
        simp
      rw [heq]
      rw [List.isPrefixOf_iff_prefix]
      exact List.prefix_append _ _
    simp only [hpre]
    rfl

/-- Witness for the amended C6: the shape conjunct applied at a concrete
failed attempt (empty keyword for Caesar). -/
theorem c6_outcome_record_shape_witness :
    (Ciphers.mkTestResult [] "caesar".toList
      (Ciphers.apply_cipher "x".toList [] "caesar".toList)).status = "Error" :=
  (c6_outcome_record_shape [] "caesar".toList "x".toList).2.2.2.2.2
    (by decide) rfl (by decide)

theorem foldl_guarded_append {α β : Type} (P : α → Prop) [DecidablePred P] (f : α → List β) :
    ∀ (l : List α) (acc : List β),
      l.foldl (fun acc a => if P a then acc ++ f a else acc) acc
        = acc ++ (l.filter (fun a => decide (P a))).flatMap f := by
  intro l
  induction l with
  | nil => intro acc; simp
  | cons a rest ih =>
    intro acc
    by_cases h : P a
    · simp [h, ih, List.append_assoc]
    · simp [h, ih]

/-- C8: `generate_affine_combinations` returns exactly the strings "a,b"
for every parsed pool integer `a` with `gcd(|a|, 26) = 1` (outer, in pool
order) and every parsed pool integer `b` (inner, in pool order, including
`a = b`), non-integer entries silently excluded; every member has a
coprime `a` part; and on the pool ["3", "7", "-1"] the result is the nine
combinations including "7,3", "7,7" and "7,-1". -/
theorem c8_affine_combinations :
    (∀ pool : List (List Char),
      Ciphers.generate_affine_combinations pool
        = ((pool.filterMap Ciphers.pyParseInt).filter
            (fun a => Ciphers.gcd ((a.natAbs : Int)) 26 = 1)).flatMap
            (fun a => (pool.filterMap Ciphers.pyParseInt).map
              (fun b => Ciphers.intToChars a ++ ",".toList ++ Ciphers.intToChars b)))
    ∧ (∀ (pool : List (List Char)) (s : List Char),
        s ∈ Ciphers.generate_affine_combinations pool →
        ∃ a b : Int, a ∈ pool.filterMap Ciphers.pyParseInt
          ∧ b ∈ pool.filterMap Ciphers.pyParseInt
          ∧ Ciphers.gcd ((a.natAbs : Int)) 26 = 1
          ∧ s = Ciphers.intToChars a ++ ",".toList ++ Ciphers.intToChars b)
    ∧ Ciphers.generate_affine_combinations ["3".toList, "7".toList, "-1".toList]
        = ["3,3".toList, "3,7".toList, "3,-1".toList, "7,3".toList, "7,7".toList,
           "7,-1".toList, "-1,3".toList, "-1,7".toList, "-1,-1".toList]
    ∧ "7,3".toList ∈ Ciphers.generate_affine_combinations ["3".toList, "7".toList, "-1".toList]
    ∧ "7,7".toList ∈ Ciphers.generate_affine_combinations ["3".toList, "7".toList, "-1".toList]
    ∧ "7,-1".toList ∈
        Ciphers.generate_affine_combinations ["3".toList, "7".toList, "-1".toList] := by
  have hgen : ∀ pool : List (List Char),
      Ciphers.generate_affine_combinations pool
        = ((pool.filterMap Ciphers.pyParseInt).filter
            (fun a => Ciphers.gcd ((a.natAbs : Int)) 26 = 1)).flatMap
            (fun a => (pool.filterMap Ciphers.pyParseInt).map
              (fun b => Ciphers.intToChars a ++ ",".toList ++ Ciphers.intToChars b)) := by
    intro pool
    unfold Ciphers.generate_affine_combinations
    simpa using foldl_guarded_append _ _ _ []
  have g3 : Ciphers.gcd 3 26 = 1 := by
    repeat first
      | (rw [Ciphers.gcd]; norm_num)
      | rfl
  have g7 : Ciphers.gcd 7 26 = 1 := by
    repeat first
      | (rw [Ciphers.gcd]; norm_num)
      | rfl
  have g1 : Ciphers.gcd 1 26 = 1 := by
    repeat first
      | (rw [Ciphers.gcd]; norm_num)
      | rfl
  have hconc : Ciphers.generate_affine_combinations ["3".toList, "7".toList, "-1".toList]
      = ["3,3".toList, "3,7".toList, "3,-1".toList, "7,3".toList, "7,7".toList,
         "7,-1".toList, "-1,3".toList, "-1,7".toList, "-1,-1".toList] := by
    rw [hgen]
    have hnums : (["3".toList, "7".toList, "-1".toList] : List (List Char)).filterMap
        Ciphers.pyParseInt = [3, 7, -1] := by decide
    rw [hnums]
    have hfil : ([3, 7, -1] : List Int).filter
        (fun a => decide (Ciphers.gcd ((a.natAbs : Int)) 26 = 1)) = [3, 7, -1] := by
      simp [List.filter_cons, g3, g7, g1]
    rw [hfil]
    decide
  refine ⟨hgen, ?_, hconc, by simp only [hconc]; decide, by simp only [hconc]; decide,
    by simp only [hconc]; decide⟩
  intro pool s hs
  rw [hgen] at hs
  simp only [List.mem_flatMap, List.mem_filter, List.mem_map, decide_eq_true_eq] at hs
  obtain ⟨a, ⟨ha, hcop⟩, b, hb, hsval⟩ := hs
  exact ⟨a, b, ha, hb, hcop, hsval.symm⟩

/-- Witness for C8: the membership characterization applied at the concrete
pool ["3", "7", "-1"] and member "7,3". -/
theorem c8_affine_combinations_witness :
    ∃ a b : Int,
      a ∈ (["3".toList, "7".toList, "-1".toList] : List (List Char)).filterMap
          Ciphers.pyParseInt
      ∧ b ∈ (["3".toList, "7".toList, "-1".toList] : List (List Char)).filterMap
          Ciphers.pyParseInt
      ∧ Ciphers.gcd ((a.natAbs : Int)) 26 = 1
      ∧ "7,3".toList = Ciphers.intToChars a ++ ",".toList ++ Ciphers.intToChars b :=
  c8_affine_combinations.2.1 ["3".toList, "7".toList, "-1".toList] "7,3".toList
    (by rw [c8_affine_combinations.2.2.1]; decide)

theorem pfFill_fst (ck : List Char) : ∀ seen,
    (Ciphers.pfFill ck seen).1
      = SpecModel.dedupKeepFirst
          (ck.filter (fun c => decide (c ∉ seen ∧ c ∈ Ciphers.pfAlphabet))) := by
  induction ck with
  | nil =>
    intro seen
    simp [Ciphers.pfFill, SpecModel.dedupKeepFirst]
  | cons ch rest ih =>
    intro seen
    by_cases h : ch ∉ seen ∧ ch ∈ Ciphers.pfAlphabet
    · rw [List.filter_cons_of_pos (by simpa using h)]
      rw [SpecModel.dedupKeepFirst]
      simp only [Ciphers.pfFill, if_pos h]
      rw [ih (ch :: seen)]
      congr 1
      rw [List.filter_filter]
      congr 1
      apply List.filter_congr
      intro c _
      rw [← Bool.decide_and, decide_eq_decide]
      simp only [List.mem_cons, not_or]
      tauto
    · rw [List.filter_cons_of_neg (by simpa using h)]
      simp only [Ciphers.pfFill, if_neg h]
      exact ih seen

theorem pfFill_snd_mem (ck : List Char) : ∀ (seen : List Char) (c : Char),
    c ∈ (Ciphers.pfFill ck seen).2 ↔ c ∈ (Ciphers.pfFill ck seen).1 ∨ c ∈ seen := by
  induction ck with
  | nil =>
    intro seen c
    simp [Ciphers.pfFill]
  | cons ch rest ih =>
    intro seen c
    by_cases h : ch ∉ seen ∧ ch ∈ Ciphers.pfAlphabet
    · simp only [Ciphers.pfFill, if_pos h]
      rw [ih (ch :: seen) c]
      simp only [List.mem_cons]
      tauto
    · simp only [Ciphers.pfFill, if_neg h]
      exact ih seen c

theorem pfGrid_eq (ck : List Char) :
    Ciphers.pfGridChars ck = SpecModel.pfGridSpec ck := by
  unfold Ciphers.pfGridChars SpecModel.pfGridSpec
  have h1 := pfFill_fst ck []
  have h2 : ck.filter (fun c => decide (c ∉ ([] : List Char) ∧ c ∈ Ciphers.pfAlphabet))
      = ck.filter (fun c => decide (c ∈ Ciphers.pfAlphabet)) := by
    apply List.filter_congr
    intro c _
    simp
  rw [h2] at h1
  simp only [h1]
  congr 1
  apply List.filter_congr
  intro c _
  rw [decide_eq_decide]
  rw [not_iff_not]
  rw [pfFill_snd_mem ck [] c, h1]
  simp

/-- C7: `playfair_cipher` coincides with the spec's reference decryption on
every input (grid from deduplicated keyword letters followed by the
remaining alphabet, row / column / rectangle digraph rules, pass-through
for digraphs outside the grid), and for a valid keyword it fails exactly
when the cleaned text has odd length. -/
theorem c7_playfair_refinement :
    (∀ text kw : List Char,
      Ciphers.playfair_cipher text kw = SpecModel.playfairReference text kw)
    ∧ (∀ text kw : List Char,
      ¬(kw = [] ∨ ¬ Ciphers.pyIsAlphaStr (Ciphers.removeSpaces kw)) →
        ((∃ e, Ciphers.playfair_cipher text kw = Except.error e)
          ↔ (Ciphers.pfCleanText text).length % 2 = 1)) := by
  constructor
  · intro text kw
    unfold Ciphers.playfair_cipher SpecModel.playfairReference
    simp only [pfGrid_eq]
  · intro text kw hv
    unfold Ciphers.playfair_cipher
    rw [if_neg hv]
    by_cases hodd : (Ciphers.pfCleanText text).length % 2 = 1
    · rw [if_pos (by omega)]
      simp [hodd]
    · rw [if_neg (by omega)]
      simp [hodd]

/-- Witness for C7: the refinement at the spec's end-to-end example, and
the odd-length failure at the concrete ciphertext "TFJJQ" (cleaned length
5) with keyword "KEYWORD". -/
theorem c7_playfair_refinement_witness :
    Ciphers.playfair_cipher "TFJJQ".toList "KEYWORD".toList
      = SpecModel.playfairReference "TFJJQ".toList "KEYWORD".toList
    ∧ (∃ e, Ciphers.playfair_cipher "TFJJQ".toList "KEYWORD".toList = Except.error e) :=
  ⟨c7_playfair_refinement.1 "TFJJQ".toList "KEYWORD".toList,
    (c7_playfair_refinement.2 "TFJJQ".toList "KEYWORD".toList (by decide)).mpr (by decide)⟩

/-- C6 counterexample: the record classifier of
`test_all_cipher_combinations` only tests the prefix "Error", so a result
text reporting an unexpected internal fault ("Unexpected error: ...") is
recorded with status "Success", not "UnexpectedError". -/
theorem c6_unexpected_error_status :
    (Ciphers.mkTestResult "k".toList "caesar".toList
        "Unexpected error: overflow".toList).status = "Success"
      ∧ ("Success" : String) ≠ "UnexpectedError" := by
  refine ⟨by decide, by decide⟩

theorem countP_range_add_period (p : Nat → Bool) (c : Nat)
    (hp : ∀ i, p (c + i) = p i) (m : Nat) :
    (List.range (c + m)).countP p = (List.range c).countP p + (List.range m).countP p := by
  rw [List.range_add, List.countP_append, List.countP_map]
  congr 1
  apply List.countP_congr
  intro i _
  simp [hp i]

theorem countP_range_cycles (p : Nat → Bool) (c : Nat) (hp : ∀ i, p (c + i) = p i)
    (q : Nat) : ∀ rem : Nat,
    (List.range (c * q + rem)).countP p
      = q * (List.range c).countP p + (List.range rem).countP p := by
  induction q with
  | zero => intro rem; simp
  | succ k ih =>
    intro rem
    have he : c * (k + 1) + rem = c + (c * k + rem) := by ring
    rw [he, countP_range_add_period p c hp, ih rem]
    ring

theorem count_range_ite (a m : Nat) :
    (List.range m).countP (fun i => decide (i = a)) = if a < m then 1 else 0 := by
  induction m with
  | zero => simp
  | succ k ih =>
    rw [List.range_succ, List.countP_append, ih]
    rcases Nat.lt_trichotomy a k with h | h | h
    · simp [List.countP_cons, h, Nat.lt_succ_of_lt h, show ¬ (k = a) by omega]
    · subst h
      simp [List.countP_cons]
    · simp [List.countP_cons, show ¬ (a < k) by omega, show ¬ (a < k + 1) by omega,
        show ¬ (k = a) by omega]

theorem countP_mod_class (c a n : Nat) (hc : 0 < c) (ha : a < c) :
    (List.range n).countP (fun i => decide (i % c = a))
      = n / c + if a < n % c then 1 else 0 := by
  have hper : ∀ i, (fun i => decide (i % c = a)) (c + i) = (fun i => decide (i % c = a)) i := by
    intro i
    simp only [decide_eq_decide]
    rw [Nat.add_mod_left]
  have hn : c * (n / c) + n % c = n := Nat.div_add_mod n c
  have hmain := countP_range_cycles (fun i => decide (i % c = a)) c hper (n / c) (n % c)
  rw [hn] at hmain
  rw [hmain]
  have h1 : (List.range c).countP (fun i => decide (i % c = a)) = 1 := by
    have hcg : ∀ x ∈ List.range c,
        decide (x % c = a) = true ↔ decide (x = a) = true := by
      intro x hx
      have hxc : x < c := List.mem_range.mp hx
      simp [Nat.mod_eq_of_lt hxc]
    rw [List.countP_congr hcg, count_range_ite]
    simp [ha]
  have h2 : (List.range (n % c)).countP (fun i => decide (i % c = a))
      = if a < n % c then 1 else 0 := by
    have hrem : n % c < c := Nat.mod_lt _ hc
    have hcg : ∀ x ∈ List.range (n % c),
        decide (x % c = a) = true ↔ decide (x = a) = true := by
      intro x hx
      have hx' : x < n % c := List.mem_range.mp hx
      simp [Nat.mod_eq_of_lt (Nat.lt_trans hx' hrem)]
    rw [List.countP_congr hcg, count_range_ite]
  rw [h1, h2, Nat.mul_one]

theorem countP_or_disjoint {α : Type} (p q : α → Bool) (l : List α)
    (h : ∀ a ∈ l, ¬(p a = true ∧ q a = true)) :
    l.countP (fun a => p a || q a) = l.countP p + l.countP q := by
  induction l with
  | nil => simp
  | cons x xs ih =>
    have hx := h x (List.mem_cons_self x xs)
    have ih' := ih (fun a ha => h a (List.mem_cons_of_mem _ ha))
    rw [List.countP_cons, List.countP_cons, List.countP_cons, ih']
    by_cases hp : p x = true
    · have hq : ¬ q x = true := fun hq => hx ⟨hp, hq⟩
      simp only [hp, hq]
      simp
      omega
    · simp only [Bool.not_eq_true] at hp
      simp [hp]
      omega

theorem countP_range_mono (p : Nat → Bool) (m n : Nat) (h : m ≤ n) :
    (List.range m).countP p ≤ (List.range n).countP p := by
  have he : n = m + (n - m) := by omega
  rw [he, List.range_add, List.countP_append]
  omega

theorem zigRail_lt (r : Nat) (hr : 2 ≤ r) (i : Nat) :
    Ciphers.zigRail (2*(r-1)) r i < r := by
  have h1 : i % (2*(r-1)) < 2*(r-1) := Nat.mod_lt _ (by omega)
  simp only [Ciphers.zigRail]
  split
  · omega
  · omega

theorem railLen_eq_count (r n j : Nat) (hr : 2 ≤ r) (hj : j < r) :
    Ciphers.railLen r n j
      = (List.range n).countP (fun i => decide (Ciphers.zigRail (2*(r-1)) r i = j)) := by
  have hc0 : 0 < 2*(r-1) := by omega
  by_cases hedge : j = 0 ∨ j = r - 1
  · have hcg : ∀ x ∈ List.range n,
        decide (Ciphers.zigRail (2*(r-1)) r x = j) = true
          ↔ decide (x % (2*(r-1)) = j) = true := by
      intro x _
      simp only [decide_eq_true_eq, Ciphers.zigRail]
      have hm : x % (2*(r-1)) < 2*(r-1) := Nat.mod_lt _ hc0
      split
      · exact Iff.rfl
      · rcases hedge with rfl | hj1
        · omega
        · omega
    rw [List.countP_congr hcg, countP_mod_class _ _ _ hc0 (by omega)]
    simp only [Ciphers.railLen]
    rw [if_pos hedge]
  · push_neg at hedge
    have hj1 : 1 ≤ j := by omega
    have hj2 : j ≤ r - 2 := by omega
    have hcg : ∀ x ∈ List.range n,
        decide (Ciphers.zigRail (2*(r-1)) r x = j) = true
          ↔ (decide (x % (2*(r-1)) = j)
              || decide (x % (2*(r-1)) = 2*(r-1) - j)) = true := by
      intro x _
      simp only [Bool.or_eq_true, decide_eq_true_eq, Ciphers.zigRail]
      have hm : x % (2*(r-1)) < 2*(r-1) := Nat.mod_lt _ hc0
      split
      · omega
      · omega
    rw [List.countP_congr hcg,
      countP_or_disjoint _ _ _ (by
        intro x _
        simp only [decide_eq_true_eq]
        omega),
      countP_mod_class _ _ _ hc0 (by omega), countP_mod_class _ _ _ hc0 (by omega)]
    simp only [Ciphers.railLen]
    rw [if_neg (not_or.mpr hedge)]
    ring

theorem sum_map_add {α : Type} (f g : α → Nat) (l : List α) :
    (l.map (fun a => f a + g a)).sum = (l.map f).sum + (l.map g).sum := by
  induction l with
  | nil => simp
  | cons x xs ih =>
    simp [ih]
    ring

theorem sum_map_ite_countP {α : Type} (p : α → Bool) (l : List α) :
    (l.map (fun a => if p a then 1 else 0)).sum = l.countP p := by
  induction l with
  | nil => simp
  | cons x xs ih =>
    rw [List.map_cons, List.sum_cons, List.countP_cons, ih]
    omega

theorem sum_bucket_counts (r : Nat) (f : Nat → Nat) (l : List Nat)
    (hf : ∀ i ∈ l, f i < r) :
    ((List.range r).map (fun j => l.countP (fun i => decide (f i = j)))).sum = l.length := by
  induction l with
  | nil => simp
  | cons x xs ih =>
    have hx : f x < r := hf x (List.mem_cons_self x xs)
    have ih' := ih (fun i hi => hf i (List.mem_cons_of_mem _ hi))
    have hstep : ((List.range r).map (fun j => (x :: xs).countP (fun i => decide (f i = j))))
        = (List.range r).map (fun j => xs.countP (fun i => decide (f i = j))
            + (if decide (f x = j) then 1 else 0)) := by
      apply List.map_congr_left
      intro j _
      rw [List.countP_cons]
    rw [hstep, sum_map_add, ih', sum_map_ite_countP]
    have hone : (List.range r).countP (fun j => decide (f x = j)) = 1 := by
      have hcg : ∀ y ∈ List.range r, decide (f x = y) = true ↔ decide (y = f x) = true := by
        intro y _
        simp [eq_comm]
      rw [List.countP_congr hcg, count_range_ite]
      simp [hx]
    rw [hone]
    simp

theorem takeRails_length (text : List Char) (lens : List Nat) :
    (Ciphers.takeRails text lens).length = lens.length := by
  induction lens generalizing text with
  | nil => simp [Ciphers.takeRails]
  | cons k ks ih => simp [Ciphers.takeRails, ih]

theorem takeRails_getD (lens : List Nat) : ∀ (text : List Char) (j : Nat), j < lens.length →
    (Ciphers.takeRails text lens).getD j []
      = (text.drop ((lens.take j).sum)).take (lens.getD j 0) := by
  induction lens with
  | nil =>
    intro text j hj
    simp at hj
  | cons k ks ih =>
    intro text j hj
    match j with
    | 0 => simp [Ciphers.takeRails]
    | j + 1 =>
      simp only [Ciphers.takeRails, List.getD_cons_succ]
      rw [ih (text.drop k) j (by simpa using hj)]
      rw [List.drop_drop]
      rw [List.take_succ_cons, List.sum_cons]

theorem take_sum_getD_le (lens : List Nat) (j : Nat) (hj : j < lens.length) :
    (lens.take j).sum + lens.getD j 0 ≤ lens.sum := by
  have hsplit := List.sum_take_add_sum_drop lens j
  have hdrop : lens.drop j = lens.getD j 0 :: lens.drop (j+1) := by
    rw [List.drop_eq_getElem_cons hj, List.getD_eq_getElem lens 0 hj]
  rw [← hsplit, hdrop, List.sum_cons]
  omega

theorem take_sum_mono (lens : List Nat) (a b : Nat) (h : a ≤ b) :
    (lens.take a).sum ≤ (lens.take b).sum :=
  List.Sublist.sum_le_sum ((List.take_prefix_take_left lens h).sublist)
    (fun x _ => Nat.zero_le x)

theorem getD_map_range {α : Type} (f : Nat → α) (r j : Nat) (hj : j < r) (d : α) :
    ((List.range r).map f).getD j d = f j := by
  rw [List.getD_eq_getElem _ _ (by simpa using hj)]
  simp

theorem set_map_range {α : Type} (f : Nat → α) (r j : Nat) (v : α) :
    ((List.range r).map f).set j v
      = (List.range r).map (fun t => if t = j then v else f t) := by
  apply List.ext_getElem
  · simp
  · intro i h1 h2
    rw [List.getElem_set]
    simp only [List.getElem_map, List.getElem_range]
    by_cases h : i = j
    · simp [h]
    · simp [h, Ne.symm h]

theorem range_map_getD (l : List Char) :
    (List.range l.length).map (fun i => l.getD i ' ') = l := by
  apply List.ext_getElem
  · simp
  · intro i h1 h2
    simp only [List.getElem_map, List.getElem_range]
    rw [List.getD_eq_getElem l ' ' (by simpa using h2)]

theorem lensOf_length (r n : Nat) : (RailModel.lensOf r n).length = r := by
  simp [RailModel.lensOf]

theorem lensOf_getD (r n j : Nat) (hj : j < r) :
    (RailModel.lensOf r n).getD j 0 = Ciphers.railLen r n j := by
  unfold RailModel.lensOf
  exact getD_map_range _ r j hj 0

theorem lensOf_sum (r n : Nat) (hr : 2 ≤ r) : (RailModel.lensOf r n).sum = n := by
  unfold RailModel.lensOf
  have hcg : (List.range r).map (Ciphers.railLen r n)
      = (List.range r).map (fun j => (List.range n).countP
          (fun i => decide (Ciphers.zigRail (2*(r-1)) r i = j))) := by
    apply List.map_congr_left
    intro j hj
    exact railLen_eq_count r n j hr (List.mem_range.mp hj)
  rw [hcg]
  rw [sum_bucket_counts r (Ciphers.zigRail (2*(r-1)) r) (List.range n)
    (fun i _ => zigRail_lt r hr i)]
  simp

theorem startOf_add_railLen_le (r n j : Nat) (hr : 2 ≤ r) (hj : j < r) :
    RailModel.startOf r n j + Ciphers.railLen r n j ≤ n := by
  have hb := take_sum_getD_le (RailModel.lensOf r n) j (by rw [lensOf_length]; exact hj)
  rw [lensOf_sum r n hr, lensOf_getD r n j hj] at hb
  exact hb

theorem rails_getD_eq (text : List Char) (r j : Nat) (hj : j < r) :
    (Ciphers.takeRails text (RailModel.lensOf r text.length)).getD j []
      = (text.drop (RailModel.startOf r text.length j)).take
          (Ciphers.railLen r text.length j) := by
  rw [takeRails_getD _ _ _ (by rw [lensOf_length]; exact hj)]
  rw [lensOf_getD _ _ _ hj]
  rfl

theorem rails_getD_length (text : List Char) (r j : Nat) (hr : 2 ≤ r) (hj : j < r) :
    ((Ciphers.takeRails text (RailModel.lensOf r text.length)).getD j []).length
      = Ciphers.railLen r text.length j := by
  rw [rails_getD_eq text r j hj, List.length_take, List.length_drop]
  have hb := startOf_add_railLen_le r text.length j hr hj
  omega

theorem getD_drop_take (text : List Char) (s L k : Nat) (hk : k < L)
    (hsL : s + L ≤ text.length) :
    ((text.drop s).take L).getD k ' ' = text.getD (s + k) ' ' := by
  have h1 : k < ((text.drop s).take L).length := by
    rw [List.length_take, List.length_drop]
    omega
  rw [List.getD_eq_getElem _ _ h1, List.getD_eq_getElem _ _ (by omega)]
  rw [List.getElem_take]
  rw [List.getElem_drop]

theorem countP_range_succ_self (c r m j0 : Nat) (hj0 : Ciphers.zigRail c r m = j0) :
    (List.range (m+1)).countP (fun i => decide (Ciphers.zigRail c r i = j0))
      = (List.range m).countP (fun i => decide (Ciphers.zigRail c r i = j0)) + 1 := by
  rw [List.range_succ, List.countP_append]
  simp [hj0]

theorem countP_range_succ_other (c r m t : Nat) (ht : Ciphers.zigRail c r m ≠ t) :
    (List.range (m+1)).countP (fun i => decide (Ciphers.zigRail c r i = t))
      = (List.range m).countP (fun i => decide (Ciphers.zigRail c r i = t)) := by
  rw [List.range_succ, List.countP_append]
  simp [ht]

theorem rebuild_closed_form (text : List Char) (r : Nat) (hr : 2 ≤ r) :
    ∀ m, m ≤ text.length →
      ((List.range m).foldl
          (Ciphers.rebuildStep (Ciphers.takeRails text (RailModel.lensOf r text.length))
            (2*(r-1)) r)
          ([], List.replicate r 0))
        = ((List.range m).map (fun i => text.getD (RailModel.sigma r text.length i) ' '),
           (List.range r).map (fun j => (List.range m).countP
             (fun i => decide (Ciphers.zigRail (2*(r-1)) r i = j)))) := by
  intro m
  induction m with
  | zero =>
    intro _
    simp only [List.range_zero, List.foldl_nil, List.map_nil, List.countP_nil]
    have hrep : (List.range r).map (fun _ => (0 : Nat)) = List.replicate r 0 := by
      apply List.ext_getElem
      · simp
      · intro i h1 h2
        simp
    rw [← hrep]
  | succ m ih =>
    intro hm1
    have hm : m ≤ text.length := by omega
    have hmn : m < text.length := by omega
    rw [List.range_succ, List.foldl_append, ih hm, List.foldl_cons, List.foldl_nil]
    have hj0r : Ciphers.zigRail (2*(r-1)) r m < r := zigRail_lt r hr m
    have hcnt : ((List.range r).map (fun j => (List.range m).countP
        (fun i => decide (Ciphers.zigRail (2*(r-1)) r i = j)))).getD
          (Ciphers.zigRail (2*(r-1)) r m) 0
        = (List.range m).countP
            (fun i => decide (Ciphers.zigRail (2*(r-1)) r i
              = Ciphers.zigRail (2*(r-1)) r m)) :=
      getD_map_range _ r _ hj0r 0
    have hraillen : ((Ciphers.takeRails text (RailModel.lensOf r text.length)).getD
        (Ciphers.zigRail (2*(r-1)) r m) []).length
        = Ciphers.railLen r text.length (Ciphers.zigRail (2*(r-1)) r m) :=
      rails_getD_length text r _ hr hj0r
    have hguard : (List.range m).countP
        (fun i => decide (Ciphers.zigRail (2*(r-1)) r i = Ciphers.zigRail (2*(r-1)) r m))
        < Ciphers.railLen r text.length (Ciphers.zigRail (2*(r-1)) r m) := by
      have hstep := countP_range_succ_self (2*(r-1)) r m _ rfl
      have hmono := countP_range_mono
        (fun i => decide (Ciphers.zigRail (2*(r-1)) r i = Ciphers.zigRail (2*(r-1)) r m))
        (m+1) text.length (by omega)
      rw [railLen_eq_count r text.length _ hr hj0r]
      omega
    simp only [Ciphers.rebuildStep, hcnt, hraillen]
    rw [if_pos hguard]
    have hchar : ((Ciphers.takeRails text (RailModel.lensOf r text.length)).getD
        (Ciphers.zigRail (2*(r-1)) r m) []).getD
          ((List.range m).countP (fun i => decide (Ciphers.zigRail (2*(r-1)) r i
            = Ciphers.zigRail (2*(r-1)) r m))) ' '
        = text.getD (RailModel.sigma r text.length m) ' ' := by
      rw [rails_getD_eq text r _ hj0r]
      rw [getD_drop_take text _ _ _ hguard
        (startOf_add_railLen_le r text.length _ hr hj0r)]
      rfl
    rw [Prod.mk.injEq]
    constructor
    · rw [hchar]
      rw [List.map_append, List.map_cons, List.map_nil]
    · rw [set_map_range]
      apply List.map_congr_left
      intro t _
      by_cases ht : t = Ciphers.zigRail (2*(r-1)) r m
      · rw [if_pos ht, ht, List.countP_append]
        simp
      · rw [if_neg ht, List.countP_append]
        have hne : Ciphers.zigRail (2*(r-1)) r m ≠ t := fun he => ht he.symm
        simp [hne]

theorem occOf_lt_railLen (r n i : Nat) (hr : 2 ≤ r) (hi : i < n) :
    RailModel.occOf (2*(r-1)) r i
      < Ciphers.railLen r n (Ciphers.zigRail (2*(r-1)) r i) := by
  have hj := zigRail_lt r hr i
  have hstep := countP_range_succ_self (2*(r-1)) r i _ rfl
  have hmono := countP_range_mono
    (fun t => decide (Ciphers.zigRail (2*(r-1)) r t = Ciphers.zigRail (2*(r-1)) r i))
    (i+1) n (by omega)
  rw [railLen_eq_count r n _ hr hj]
  unfold RailModel.occOf
  omega

theorem sigma_lt (r n i : Nat) (hr : 2 ≤ r) (hi : i < n) :
    RailModel.sigma r n i < n := by
  have h1 := occOf_lt_railLen r n i hr hi
  have h2 := startOf_add_railLen_le r n (Ciphers.zigRail (2*(r-1)) r i) hr
    (zigRail_lt r hr i)
  unfold RailModel.sigma
  omega

theorem startOf_mono_succ (r n j j' : Nat) (hjj : j < j') (hj : j < r) :
    RailModel.startOf r n j + Ciphers.railLen r n j ≤ RailModel.startOf r n j' := by
  have hjl : j < (RailModel.lensOf r n).length := by
    rw [lensOf_length]
    exact hj
  have h1 : ((RailModel.lensOf r n).take (j+1)).sum
      = ((RailModel.lensOf r n).take j).sum + Ciphers.railLen r n j := by
    rw [List.take_succ, List.sum_append, List.getElem?_eq_getElem hjl]
    have hget : (RailModel.lensOf r n)[j] = Ciphers.railLen r n j := by
      rw [← lensOf_getD r n j hj, List.getD_eq_getElem _ _ hjl]
    simp [hget]
  have h2 := take_sum_mono (RailModel.lensOf r n) (j+1) j' hjj
  unfold RailModel.startOf
  omega

theorem sigma_lt_of_zig_lt (r n i i' : Nat) (hr : 2 ≤ r) (hi : i < n)
    (hz : Ciphers.zigRail (2*(r-1)) r i < Ciphers.zigRail (2*(r-1)) r i') :
    RailModel.sigma r n i < RailModel.sigma r n i' := by
  have h1 := occOf_lt_railLen r n i hr hi
  have h2 := startOf_mono_succ r n _ _ hz (zigRail_lt r hr i)
  unfold RailModel.sigma
  omega

theorem sigma_lt_of_same_zig (r n i i' : Nat)
    (hz : Ciphers.zigRail (2*(r-1)) r i = Ciphers.zigRail (2*(r-1)) r i')
    (hii : i < i') :
    RailModel.sigma r n i < RailModel.sigma r n i' := by
  unfold RailModel.sigma RailModel.occOf
  rw [hz]
  have hstep := countP_range_succ_self (2*(r-1)) r i _ hz
  have hmono := countP_range_mono
    (fun t => decide (Ciphers.zigRail (2*(r-1)) r t = Ciphers.zigRail (2*(r-1)) r i'))
    (i+1) i' (by omega)
  omega

theorem sigma_inj_on (r n : Nat) (hr : 2 ≤ r) (i i' : Nat) (hi : i < n) (hi' : i' < n)
    (heq : RailModel.sigma r n i = RailModel.sigma r n i') : i = i' := by
  rcases Nat.lt_trichotomy (Ciphers.zigRail (2*(r-1)) r i)
    (Ciphers.zigRail (2*(r-1)) r i') with hz | hz | hz
  · exact absurd heq (Nat.ne_of_lt (sigma_lt_of_zig_lt r n i i' hr hi hz))
  · rcases Nat.lt_trichotomy i i' with hii | hii | hii
    · exact absurd heq (Nat.ne_of_lt (sigma_lt_of_same_zig r n i i' hz hii))
    · exact hii
    · exact absurd heq.symm (Nat.ne_of_lt (sigma_lt_of_same_zig r n i' i hz.symm hii))
  · exact absurd heq.symm (Nat.ne_of_lt (sigma_lt_of_zig_lt r n i' i hr hi' hz))

theorem sigma_map_perm (r n : Nat) (hr : 2 ≤ r) :
    ((List.range n).map (RailModel.sigma r n)).Perm (List.range n) := by
  have hnodup : ((List.range n).map (RailModel.sigma r n)).Nodup := by
    apply List.Nodup.map_on ?_ (List.nodup_range n)
    intro x hx y hy hxy
    exact sigma_inj_on r n hr x y (List.mem_range.mp hx) (List.mem_range.mp hy) hxy
  have hsub : ((List.range n).map (RailModel.sigma r n)) ⊆ List.range n := by
    intro x hx
    obtain ⟨i, hi, rfl⟩ := List.mem_map.mp hx
    exact List.mem_range.mpr (sigma_lt r n i hr (List.mem_range.mp hi))
  exact (hnodup.subperm hsub).perm_of_length_le (by simp)

/-- C10: for every text and every keyword that parses as an integer rail
count of at least 2, `rail_fence_cipher` succeeds and returns a string of
exactly the input's length whose characters form the same multiset as the
input's (a rearrangement); and whenever the text length is at most the
rail count, the output is the input unchanged. -/
theorem c10_railfence_permutation :
    ∀ (text kw : List Char) (z : Int),
      Ciphers.pyParseInt kw = some z → 2 ≤ z →
        (∃ res, Ciphers.rail_fence_cipher text kw = Except.ok res
          ∧ res.length = text.length ∧ res.Perm text)
        ∧ (text.length ≤ z.toNat →
            Ciphers.rail_fence_cipher text kw = Except.ok text) := by
  intro text kw z hparse hz
  have hnlt : ¬ (z < 2) := by omega
  constructor
  · by_cases hlen : text.length ≤ z.toNat
    · refine ⟨text, ?_, rfl, List.Perm.refl text⟩
      unfold Ciphers.rail_fence_cipher
      rw [hparse]
      simp [hnlt, hlen]
    · have hr : 2 ≤ z.toNat := by omega
      have hrn : z.toNat < text.length := by omega
      refine ⟨(List.range text.length).map
          (fun i => text.getD (RailModel.sigma z.toNat text.length i) ' '), ?_, ?_, ?_⟩
      · unfold Ciphers.rail_fence_cipher
        rw [hparse]
        simp only [hnlt, if_false, hlen]
        rw [show ((List.range z.toNat).map (Ciphers.railLen z.toNat text.length))
          = RailModel.lensOf z.toNat text.length from rfl]
        rw [rebuild_closed_form text z.toNat hr text.length le_rfl]
      · simp
      · have hperm := sigma_map_perm z.toNat text.length hr
        have hmm : (List.range text.length).map
            (fun i => text.getD (RailModel.sigma z.toNat text.length i) ' ')
            = (((List.range text.length).map (RailModel.sigma z.toNat text.length)).map
                (fun t => text.getD t ' ')) := by
          rw [List.map_map]
          rfl
        rw [hmm]
        have hres := hperm.map (fun t => text.getD t ' ')
        rw [range_map_getD text] at hres
        exact hres
  · intro hlen
    unfold Ciphers.rail_fence_cipher
    rw [hparse]
    simp [hnlt, hlen]

/-- Witness for C10: the permutation part at ciphertext "aebdfcg" with 3
rails, and the unchanged-text part at "ab" with 3 rails. -/
theorem c10_railfence_permutation_witness :
    (∃ res, Ciphers.rail_fence_cipher "aebdfcg".toList "3".toList = Except.ok res
      ∧ res.length = ("aebdfcg".toList).length ∧ res.Perm "aebdfcg".toList)
    ∧ Ciphers.rail_fence_cipher "ab".toList "3".toList = Except.ok "ab".toList :=
  ⟨(c10_railfence_permutation "aebdfcg".toList "3".toList 3 (by rfl) (by decide)).1,
    (c10_railfence_permutation "ab".toList "3".toList 3 (by rfl) (by decide)).2
      (by decide)⟩
